import Mathlib

/-!
Shallow embedding of the Go package `rbtree` (files rbtree.go, node.go,
iterator.go, sub_tree.go, sub_iterator.go) and proofs about it.

The Go code is an imperative CLRS red-black tree over a sentinel node
`tNil` with parent pointers.  The embedding represents a tree by the
inductive type `RTree` (the sentinel is the constructor `nil`; a Go node
`node{color, item, left, right, parent}` is `node color left item right`)
and represents the parent-pointer chain of a focused node by a zipper
context `Path`, exactly the information the Go code reads through
`.parent`.  Mutation becomes rebuilding: `Path.fill` reassembles the full
tree from a focus and its context.

Two facts about the Go sentinel matter and are modelled explicitly:
its `left`/`right` fields hold the Go `nil` pointer (never reassigned),
so any code path that walks into a child of `tNil` and then dereferences
it is a runtime panic (modelled by `Except RBPanic`); and its `color`
starts black and is only ever assigned black (every write of `red` in the
code targets a node known to be a real node), so reading `tNil.color`
yields black and writes of black to it are no-ops.
-/

namespace Rbt

/-- Go `type color byte` with `red`/`black`. -/
inductive Color where
  | red
  | black
deriving DecidableEq, Repr

/-- Go `node` struct; `nil` is the sentinel `tNil`.  A Go node
`node{c, item, left, right, parent}` is embedded as `node c left item right`;
the parent pointer is kept by `Path` contexts instead. -/
inductive RTree (α : Type) where
  | nil
  | node (c : Color) (l : RTree α) (x : α) (r : RTree α)
deriving DecidableEq, Repr

/-- Context of a focused subtree: the chain of ancestors a Go node can reach
through `.parent`.  `left c p x sib` means the focus is the left child of a
node with color `c`, item `x` and right subtree `sib`, whose own context is
`p`; `right c sib x p` is the symmetric case; `root` means the parent is
`tNil`. -/
inductive Path (α : Type) where
  | root
  | left (c : Color) (parent : Path α) (x : α) (sib : RTree α)
  | right (c : Color) (sib : RTree α) (x : α) (parent : Path α)
deriving DecidableEq, Repr

/-- Runtime panic: dereference of the Go `nil` pointer. -/
inductive RBPanic where
  | nilDeref
deriving DecidableEq, Repr

/-- Errors exported by the package (`ErrorOutOfSubTreeRange`,
`ErrorFromGreaterThanToKey`). -/
inductive GoErr where
  | outOfSubTreeRange
  | fromGreaterThanToKey
deriving DecidableEq, Repr

/-- Decidable equality of `Except` results, used to evaluate concrete
runs. -/
instance {ε α : Type} [DecidableEq ε] [DecidableEq α] :
    DecidableEq (Except ε α) :=
  fun x y =>
    match x, y with
    | .ok a, .ok b =>
      if h : a = b then isTrue (by rw [h])
      else isFalse (by intro hc ; cases hc ; exact h rfl)
    | .error a, .error b =>
      if h : a = b then isTrue (by rw [h])
      else isFalse (by intro hc ; cases hc ; exact h rfl)
    | .ok _, .error _ => isFalse (by intro hc ; cases hc)
    | .error _, .ok _ => isFalse (by intro hc ; cases hc)

namespace RTree

/-- Tells whether a Go color test `t.color == red` succeeds; `tNil` is black. -/
def isRed {α : Type} : RTree α → Bool
  | .node .red _ _ _ => true
  | _ => false

/-- Reads `t.color`; `tNil.color` is black (see the header note). -/
def colorOf {α : Type} : RTree α → Color
  | .nil => .black
  | .node c _ _ _ => c

/-- Assignment `t.color = black`.  On `tNil` this is a no-op because
`tNil.color` is already black. -/
def setBlack {α : Type} : RTree α → RTree α
  | .nil => .nil
  | .node _ l x r => .node .black l x r

/-- In-order item list of a tree. -/
def inorder {α : Type} : RTree α → List α
  | .nil => []
  | .node _ l x r => inorder l ++ x :: inorder r

/-- Number of real nodes. -/
def size {α : Type} : RTree α → Nat
  | .nil => 0
  | .node _ l _ r => size l + 1 + size r

end RTree

namespace Path

/-- Rebuilds the whole tree from a focused subtree and its context. -/
def fill {α : Type} : Path α → RTree α → RTree α
  | .root, t => t
  | .left c p x sib, t => fill p (.node c t x sib)
  | .right c sib x p, t => fill p (.node c sib x t)

/-- Items of the whole tree that precede the focused subtree in order. -/
def lefts {α : Type} : Path α → List α
  | .root => []
  | .left _ p _ _ => lefts p
  | .right _ sib x p => lefts p ++ (RTree.inorder sib ++ [x])

/-- Items of the whole tree that follow the focused subtree in order. -/
def rights {α : Type} : Path α → List α
  | .root => []
  | .left _ p x sib => x :: (RTree.inorder sib ++ rights p)
  | .right _ _ _ p => rights p

/-- Number of ancestor entries. -/
def len {α : Type} : Path α → Nat
  | .root => 0
  | .left _ p _ _ => len p + 1
  | .right _ _ _ p => len p + 1

/-- Replaces the `root` end of a relative context by another context,
turning a context relative to some subtree into an absolute one. -/
def graft {α : Type} : Path α → Path α → Path α
  | .root, base => base
  | .left c p x sib, base => .left c (graft p base) x sib
  | .right c sib x p, base => .right c sib x (graft p base)

end Path

open RTree

/-- Go `rbTree.find`: walks from the focus comparing with `Less` on both
sides, stopping at an equal node or at `tNil`; the returned context is the
parent-pointer information `find` leaves behind (its second return value
is the last real node, the head of this context). -/
def zoom {α : Type} (lt : α → α → Bool) (x : α) :
    RTree α → Path α → RTree α × Path α
  | .nil, p => (.nil, p)
  | .node c l y r, p =>
    if lt x y then zoom lt x l (.left c p y r)
    else if lt y x then zoom lt x r (.right c l y p)
    else (.node c l y r, p)

/-- Go `node.min` as a zipper walk: descend `left` while it is not `tNil`.
Called only on real nodes by `remove` and `NewIterator`. -/
def zoomMin {α : Type} : RTree α → Path α → RTree α × Path α
  | .node c (.node lc ll lx lr) x r, p =>
    zoomMin (.node lc ll lx lr) (.left c p x r)
  | t, p => (t, p)

/-- Go `rbTree.insertFixup`.  The loop runs while `z.parent.color == red`;
each shape of the two topmost context entries is one CLRS case.  Case 1
(red uncle) recolors and recurses two levels up; cases 2/3 rotate, after
which the new parent of `z` is black, so the loop exits on its next test
and the function returns the reassembled tree; the final statement
`rb.root.color = black` is the outer `setBlack`.  A context of the shape
`left/right red root` (a red parent that is the root) cannot arise from a
tree whose root is black; on such junk input the Go code would dereference
a child of `tNil` — here the catch-all simply stops the loop. -/
def insertFixup {α : Type} : RTree α → Path α → RTree α
  | t, .left .red (.left _ gp gy u) py psib =>
    if u.isRed then
      -- case 1: parent and uncle become black, grandparent red, z moves up
      insertFixup (.node .red (.node .black t py psib) gy (setBlack u)) gp
    else
      -- case 3: parent black, grandparent red, right-rotate the grandparent
      setBlack (Path.fill gp (.node .black t py (.node .red psib gy u)))
  | t, .right .red pl py (.left gc gp gy u) =>
    if u.isRed then
      insertFixup (.node .red (.node .black pl py t) gy (setBlack u)) gp
    else
      -- case 2 (left-rotate the parent) then case 3; z is a real node here,
      -- the nil sub-case is a Go panic path, unreachable; it is given the
      -- untouched reassembled tree
      match t with
      | .node _ tl tx tr =>
        setBlack (Path.fill gp
          (.node .black (.node .red pl py tl) tx (.node .red tr gy u)))
      | .nil => setBlack (Path.fill gp (.node gc (.node .red pl py .nil) gy u))
  | t, .right .red pl py (.right _ u gy gp) =>
    if u.isRed then
      insertFixup (.node .red (setBlack u) gy (.node .black pl py t)) gp
    else
      setBlack (Path.fill gp (.node .black (.node .red u gy pl) py t))
  | t, .left .red (.right gc u gy gp) py psib =>
    if u.isRed then
      insertFixup (.node .red (setBlack u) gy (.node .black t py psib)) gp
    else
      match t with
      | .node _ tl tx tr =>
        setBlack (Path.fill gp
          (.node .black (.node .red u gy tl) tx (.node .red tr py psib)))
      | .nil => setBlack (Path.fill gp (.node gc u gy (.node .red .nil py psib)))
  | t, p => setBlack (Path.fill p t)

/-- Go `rbTree` value: root and the `length` counter. -/
structure RBState (α : Type) where
  root : RTree α
  length : Int
deriving DecidableEq, Repr

/-- Go `New()`. -/
def newTree {α : Type} : RBState α := ⟨.nil, 0⟩

/-- Go `rbTree.insert`: find the slot; an equal node has its `item` field
overwritten in place and is returned (so `Insert` reports a replacement);
otherwise the fresh red node is attached at the slot `find` reached and
`insertFixup` runs.  (Attaching by the recorded descent direction agrees
with the Go re-comparison `z.item.Less(y.item)` because `Less` is
asymmetric on the final step: the descent went left on `lt x y` and right
on `lt y x`.)  Returns the new root and whether a new node was added. -/
def insertNode {α : Type} (lt : α → α → Bool) (x : α) (t : RTree α) :
    RTree α × Bool :=
  match zoom lt x t .root with
  | (.node c l _ r, q) => (Path.fill q (.node c l x r), false)
  | (.nil, q) => (insertFixup (.node .red .nil x .nil) q, true)

/-- Go `rbTree.Insert`: wraps `insert`, bumping `length` exactly when a new
node was added; the error is always `nil` here. -/
def rbInsert {α : Type} (lt : α → α → Bool) (x : α) (st : RBState α) :
    RBState α × Bool × Option GoErr :=
  match insertNode lt x st.root with
  | (r, true) => (⟨r, st.length + 1⟩, true, none)
  | (r, false) => (⟨r, st.length⟩, false, none)

/-- Go `rbTree.Find`: returns the stored item of the equal node, else `nil`. -/
def rbFind {α : Type} (lt : α → α → Bool) (x : α) (st : RBState α) :
    Option α :=
  match zoom lt x st.root .root with
  | (.node _ _ y _, _) => some y
  | (.nil, _) => none

/-- Go `node.min().item`.  On `tNil` the loop test `n.left != tNil` passes
(`tNil.left` is the Go `nil` pointer, a different value), the walk steps to
the `nil` pointer and the next test dereferences it: panic. -/
def minItem {α : Type} : RTree α → Except RBPanic α
  | .nil => .error .nilDeref
  | .node _ .nil x _ => .ok x
  | .node _ (.node lc ll lx lr) _ _ => minItem (.node lc ll lx lr)

/-- Go `node.max().item`, mirror of `minItem` (same panic on `tNil`). -/
def maxItem {α : Type} : RTree α → Except RBPanic α
  | .nil => .error .nilDeref
  | .node _ _ x .nil => .ok x
  | .node _ _ _ (.node rc rl rx rr) => maxItem (.node rc rl rx rr)

/-- Go `rbTree.Min`. -/
def rbMin {α : Type} (st : RBState α) : Except RBPanic α := minItem st.root

/-- Go `rbTree.Max`. -/
def rbMax {α : Type} (st : RBState α) : Except RBPanic α := maxItem st.root

/-- Go `rbTree.Len`. -/
def rbLen {α : Type} (st : RBState α) : Int := st.length

/-- Go iterator `state` byte (the Go source spells it `deferencable`). -/
inductive IState where
  | deferencable
  | beforeFirst
  | pastRear
deriving DecidableEq, Repr

/-- Go `iterator` struct: the pointed node together with the parent-pointer
information the successor walk reads, plus the state byte.  A focus of
`nil` stands for `it.node == tNil`. -/
structure Iter (α : Type) where
  focus : RTree α
  path : Path α
  state : IState
deriving DecidableEq, Repr

/-- Parent-pointer climb shared by `iterator.Next` and `node.ceiling`:
ascend while the current node is its parent's right child.  `ok` carries
the first ancestor entered from its left child (with that ancestor's own
context); `error` means the chain ran out at the root (in Go: the loop
stopped at a node whose parent is `tNil` while still coming from the
right), and carries the reassembled whole tree. -/
def climbUp {α : Type} : RTree α → Path α → Except (RTree α) (RTree α × Path α)
  | t, .left c p x sib => .ok (.node c t x sib, p)
  | t, .right c sib x p => climbUp (.node c sib x t) p
  | t, .root => .error t

/-- Go `iterator.Next`.  Returns the yielded item (`nil` = `none`) and the
updated iterator.  When the pointed node has no right child and is the
root, the Go walk sets `y = tNil` at once, leaves the loop (`tNil.right`
is the Go `nil` pointer, never equal to a real node), stores `tNil` in
`it.node` and returns `tNil.item`, i.e. `nil` — the focus becomes `nil`
with the state unchanged.  When the climb runs out at the root while
coming from the right child, the state becomes `pastRear`. -/
def iterNext {α : Type} (it : Iter α) : Option α × Iter α :=
  match it.state with
  | .pastRear => (none, it)
  | s =>
    match it.focus with
    | .nil => (none, it)
    | .node c l x r =>
      match s with
      | .beforeFirst => (some x, ⟨.node c l x r, it.path, .deferencable⟩)
      | _ =>
        match r with
        | .node rc rl rx rr =>
          match zoomMin (.node rc rl rx rr) (.right c l x it.path) with
          | (.node c2 l2 x2 r2, p2) =>
            (some x2, ⟨.node c2 l2 x2 r2, p2, .deferencable⟩)
          | (.nil, p2) => (none, ⟨.nil, p2, .deferencable⟩)
        | .nil =>
          match it.path with
          | .root => (none, ⟨.nil, .root, s⟩)
          | p =>
            match climbUp (.node c l x .nil) p with
            | .ok (.node c2 l2 x2 r2, p2) =>
              (some x2, ⟨.node c2 l2 x2 r2, p2, .deferencable⟩)
            | .ok (.nil, p2) => (none, ⟨.nil, p2, .deferencable⟩)
            | .error t => (none, ⟨t, .root, .pastRear⟩)

/-- Go `rbTree.NewIterator`: on `Len() == 0` an iterator at `tNil`,
otherwise at `rb.root.min()`.  If the length counter and the root ever
disagreed (`length != 0` with root `tNil`) the Go call `rb.root.min()`
would panic; reachable states never do. -/
def mkIterator {α : Type} (st : RBState α) : Except RBPanic (Iter α) :=
  if st.length == 0 then .ok ⟨.nil, .root, .beforeFirst⟩
  else
    match st.root with
    | .nil => .error .nilDeref
    | .node c l x r =>
      match zoomMin (.node c l x r) .root with
      | (f, p) => .ok ⟨f, p, .beforeFirst⟩

/-- Repeated `Next` calls, collecting the yielded items until the first
`nil` answer or until the fuel runs out.  The Go loop has no fuel; every
statement below supplies fuel at least the number of items the stream can
yield, which makes the two agree. -/
def iterCollect {α : Type} : Iter α → Nat → List α
  | _, 0 => []
  | it, fuel + 1 =>
    match iterNext it with
    | (none, _) => []
    | (some x, it2) => x :: iterCollect it2 fuel

/-- Full iteration of a tree through `NewIterator`/`Next`. -/
def traverse {α : Type} (st : RBState α) : Except RBPanic (List α) :=
  (mkIterator st).map (fun it => iterCollect it st.root.size)

/-- Go `node.ceiling` climb is `climbUp`; `node.floor` uses this mirror:
ascend while the current node is its parent's left child; `ok` is the
first ancestor entered from its right child. -/
def floorClimb {α : Type} : RTree α → Path α → Except (RTree α) (RTree α × Path α)
  | t, .right c sib x p => .ok (.node c sib x t, p)
  | t, .left c p x sib => floorClimb (.node c t x sib) p
  | t, .root => .error t

/-- Go `node.ceiling`: the node of the least item not below the argument,
as a focus plus context (`nil` when every item is below it).  Descent only
enters non-`tNil` children; on an exhausted right descent the parent climb
runs (`climbUp`), whose root overflow is Go returning `tNil`. -/
def ceilingGo {α : Type} (lt : α → α → Bool) (x : α) :
    RTree α → Path α → RTree α × Path α
  | .nil, p => (.nil, p)
  | .node c l y r, p =>
    if lt x y then
      match l with
      | .node lc ll lx lr => ceilingGo lt x (.node lc ll lx lr) (.left c p y r)
      | .nil => (.node c l y r, p)
    else if lt y x then
      match r with
      | .node rc rl rx rr => ceilingGo lt x (.node rc rl rx rr) (.right c l y p)
      | .nil =>
        match climbUp (.node c l y r) p with
        | .ok fp => fp
        | .error _ => (.nil, .root)
    else (.node c l y r, p)

/-- Go `node.floor`, mirror of `ceilingGo`. -/
def floorGo {α : Type} (lt : α → α → Bool) (x : α) :
    RTree α → Path α → RTree α × Path α
  | .nil, p => (.nil, p)
  | .node c l y r, p =>
    if lt y x then
      match r with
      | .node rc rl rx rr => floorGo lt x (.node rc rl rx rr) (.right c l y p)
      | .nil => (.node c l y r, p)
    else if lt x y then
      match l with
      | .node lc ll lx lr => floorGo lt x (.node lc ll lx lr) (.left c p y r)
      | .nil =>
        match floorClimb (.node c l y r) p with
        | .ok fp => fp
        | .error _ => (.nil, .root)
    else (.node c l y r, p)

/-- Go `subTree` view: the two bounds.  The backing `rbTree` the view
points at is passed to each operation explicitly. -/
structure SubT (α : Type) where
  fromKey : α
  toKey : α
deriving DecidableEq, Repr

/-- Go `subTree.inRange`: `!item.Less(fromKey) && !st.toKey.Less(item)`.
Note the second test makes `toKey` itself pass. -/
def inRange {α : Type} (lt : α → α → Bool) (s : SubT α) (x : α) : Bool :=
  !lt x s.fromKey && !lt s.toKey x

/-- Go `subTree.Insert`: out-of-range keys get `ErrorOutOfSubTreeRange`
and the backing tree is untouched; otherwise delegate to the tree. -/
def subInsert {α : Type} (lt : α → α → Bool) (s : SubT α) (x : α)
    (st : RBState α) : RBState α × Bool × Option GoErr :=
  if !inRange lt s x then (st, false, some .outOfSubTreeRange)
  else rbInsert lt x st

/-- Go `subTree.Find`. -/
def subFind {α : Type} (lt : α → α → Bool) (s : SubT α) (x : α)
    (st : RBState α) : Option α :=
  if !inRange lt s x then none else rbFind lt x st

/-- Go `subTree.Min`: `ceiling(fromKey)` of the backing root, `nil` item
when the ceiling is `tNil`. -/
def subMin {α : Type} (lt : α → α → Bool) (s : SubT α) (st : RBState α) :
    Option α :=
  match ceilingGo lt s.fromKey st.root .root with
  | (.node _ _ y _, _) => some y
  | (.nil, _) => none

/-- Go `subTree.Max`: `floor(toKey)` of the backing root. -/
def subMax {α : Type} (lt : α → α → Bool) (s : SubT α) (st : RBState α) :
    Option α :=
  match floorGo lt s.toKey st.root .root with
  | (.node _ _ y _, _) => some y
  | (.nil, _) => none

/-- Go `subIterator`: a wrapped tree iterator plus the exclusive bound. -/
structure SubIter (α : Type) where
  iter : Iter α
  toKey : α
deriving DecidableEq, Repr

/-- Go `subTree.NewIterator`: a tree iterator seeded at `ceiling(fromKey)`
in state `beforeFirst`, wrapped with `toKey`. -/
def subMkIterator {α : Type} (lt : α → α → Bool) (s : SubT α)
    (st : RBState α) : SubIter α :=
  match ceilingGo lt s.fromKey st.root .root with
  | (f, p) => ⟨⟨f, p, .beforeFirst⟩, s.toKey⟩

/-- Go `subIterator.Next`: forwards to the wrapped iterator; an item with
`toKey.Less(item)` forces the wrapped iterator to `pastRear` and yields
nothing. -/
def subNext {α : Type} (lt : α → α → Bool) (si : SubIter α) :
    Option α × SubIter α :=
  if si.iter.state = .pastRear then (none, si)
  else
    match iterNext si.iter with
    | (some x, it2) =>
      if lt si.toKey x then (none, ⟨⟨it2.focus, it2.path, .pastRear⟩, si.toKey⟩)
      else (some x, ⟨it2, si.toKey⟩)
    | (none, it2) => (none, ⟨it2, si.toKey⟩)

/-- Repeated `subIterator.Next` calls, as `iterCollect`. -/
def subCollect {α : Type} (lt : α → α → Bool) : SubIter α → Nat → List α
  | _, 0 => []
  | si, fuel + 1 =>
    match subNext lt si with
    | (none, _) => []
    | (some x, si2) => x :: subCollect lt si2 fuel

/-- Full iteration of a sub-tree view. -/
def subTraverse {α : Type} (lt : α → α → Bool) (s : SubT α)
    (st : RBState α) : List α :=
  subCollect lt (subMkIterator lt s st) (st.root.size + 1)

/-- Go `subTree.Len`: counts `Next` answers until `nil`. -/
def subLen {α : Type} (lt : α → α → Bool) (s : SubT α) (st : RBState α) :
    Int :=
  (subTraverse lt s st).length

/-- Go `rbTree.SubTree`: `ErrorFromGreaterThanToKey` when
`toKey.Less(fromKey)`, else the view. -/
def rbSubTree {α : Type} (lt : α → α → Bool) (fromKey toKey : α) :
    Except GoErr (SubT α) :=
  if lt toKey fromKey then .error .fromGreaterThanToKey
  else .ok ⟨fromKey, toKey⟩

/-- Go `subTree.SubTree`: both new bounds must pass `inRange`, else
`ErrorOutOfSubTreeRange`; on success the view is built by
`st.tree.SubTree` directly against the backing tree (so the result is a
plain bounds pair on the same backing state, not nested in the parent
view). -/
def subSubTree {α : Type} (lt : α → α → Bool) (s : SubT α)
    (fromKey toKey : α) : Except GoErr (SubT α) :=
  if !inRange lt s fromKey || !inRange lt s toKey then
    .error .outOfSubTreeRange
  else rbSubTree lt fromKey toKey

/-- Outcome of one iteration of the `removeFixup` loop body: keep looping
with a new `x` (case 2), or the body ended with `x = rb.root` so the loop
is about to exit (cases 3/4; carries the new whole tree), or a panic. -/
inductive StepRes (α : Type) where
  | cont (f : RTree α) (p : Path α)
  | done (root : RTree α)
  | panic
deriving DecidableEq, Repr

/-- Cases 2–4 of the `removeFixup` body for `x` a left child, after the
possible case-1 rewrite: `x` is the focus `f`, its parent has color `pc`,
item `pv`, context `pp`, and `w` is the right sibling the code is holding.
The Go statements are followed literally, including the slip in case 3:
after `rightRotate(w)` the code sets `x = x.parent` and keeps the stale
`w` (CLRS refreshes `w = x.parent.right` instead), so case 4 then runs on
the grandparent with `w` pointing into the rotated sibling subtree. -/
def rfLeftAux {α : Type} (f : RTree α) (pc : Color) (pp : Path α) (pv : α)
    (w : RTree α) : StepRes α :=
  match w with
  | .nil => .panic
    -- w is tNil: `w.left` is the Go nil pointer and `w.left.color` panics
  | .node _wc wl wy wr =>
    if wl.colorOf = .black ∧ wr.colorOf = .black then
      -- case 2: w turns red, x moves to its parent
      .cont (.node pc f pv (.node .red wl wy wr)) pp
    else if wr.colorOf = .black then
      -- case 3 as written: w.left.color = black; w.color = red;
      -- rightRotate(w); x = x.parent — then case 4 runs unconditionally
      -- with x the old parent P and the stale w
      match wl with
      | .nil => .panic -- unreachable: wl is red in this branch
      | .node _ a ax b =>
        -- after the rotation the sibling slot holds
        -- node black a ax (node red b wy wr) and the stale w is the inner
        -- node; case 4 then does w.color = x.parent.color (G.color);
        -- x.parent.color = black; w.right.color = black; leftRotate(G)
        match pp with
        | .root => .panic
          -- x.parent.parent is tNil: the two color writes are no-ops on
          -- tNil, but leftRotate(tNil) reads tNil.right (the Go nil
          -- pointer) and dereferences its left field: panic
        | .left gc gp gv gsib =>
          match gsib with
          | .nil => .panic -- leftRotate(G) with G.right = tNil panics too
          | .node sc sl sy sr =>
            .done (Path.fill gp (.node sc
              (.node .black
                (.node pc f pv (.node .black a ax (.node gc b wy (setBlack wr))))
                gv sl)
              sy sr))
        | .right gc gl gv gp =>
          .done (Path.fill gp (.node pc
            (.node .black gl gv f) pv
            (.node .black a ax (.node gc b wy (setBlack wr)))))
    else
      -- case 4: w.color = x.parent.color; x.parent.color = black;
      -- w.right.color = black; leftRotate(x.parent); x = rb.root
      .done (Path.fill pp (.node pc (.node .black f pv wl) wy (setBlack wr)))

/-- Mirror of `rfLeftAux` for `x` a right child (sibling `w` on the left),
with the same case-3 slip mirrored. -/
def rfRightAux {α : Type} (f : RTree α) (pc : Color) (w : RTree α) (pv : α)
    (pp : Path α) : StepRes α :=
  match w with
  | .nil => .panic -- `w.right.color` dereferences the Go nil pointer
  | .node _wc wl wy wr =>
    if wr.colorOf = .black ∧ wl.colorOf = .black then
      .cont (.node pc (.node .red wl wy wr) pv f) pp
    else if wl.colorOf = .black then
      -- case 3 mirrored: w.right.color = black; w.color = red;
      -- leftRotate(w); x = x.parent; then case 4 on the grandparent
      match wr with
      | .nil => .panic -- unreachable: wr is red in this branch
      | .node _ b bx a =>
        match pp with
        | .root => .panic -- rightRotate(tNil) dereferences the Go nil pointer
        | .right gc gl gv gp =>
          match gl with
          | .nil => .panic -- rightRotate(G) with G.left = tNil panics
          | .node sc sl sy sr =>
            .done (Path.fill gp (.node sc sl sy
              (.node .black sr gv
                (.node pc (.node .black (.node gc (setBlack wl) wy b) bx a) pv f))))
        | .left gc gp gv gsib =>
          .done (Path.fill gp (.node pc
            (.node .black (.node gc (setBlack wl) wy b) bx a) pv
            (.node .black f gv gsib)))
    else
      -- case 4 mirrored: w.color = x.parent.color; x.parent.color = black;
      -- w.left.color = black; rightRotate(x.parent); x = rb.root
      .done (Path.fill pp (.node pc (setBlack wl) wy (.node .black wr pv f)))

/-- One iteration of the `removeFixup` loop body (called with `x` not the
root and black).  Case 1 (red sibling) recolors, rotates at the parent and
refreshes `w`; the rest of the body is `rfLeftAux`/`rfRightAux`. -/
def rfStep {α : Type} : RTree α → Path α → StepRes α
  | f, .left pc pp pv w =>
    (match w with
     | .node .red wl wy wr => rfLeftAux f .red (.left .black pp wy wr) pv wl
     | _ => rfLeftAux f pc pp pv w)
  | f, .right pc w pv pp =>
    (match w with
     | .node .red wl wy wr => rfRightAux f .red wr pv (.right .black wl wy pp)
     | _ => rfRightAux f pc w pv pp)
  | _, .root => .panic -- not reached: the driver below handles the root case

/-- Go `rbTree.removeFixup` loop: while `x != rb.root && x.color == black`
run the body; on exit `x.color = black`.  The loop needs no fuel in Go;
here each call is given fuel `2 * p.len + 2`, which bounds the iteration
count: a plain case 2 shortens the context by one, and case 1 followed by
case 2 keeps its length but leaves `x` red so the next test exits. -/
def removeFixupLoop {α : Type} : Nat → RTree α → Path α → Except RBPanic (RTree α)
  | 0, f, p => .ok (Path.fill p (setBlack f)) -- fuel never runs out (see above)
  | fuel + 1, f, p =>
    match p with
    | .root => .ok (setBlack f)
    | _ =>
      if f.colorOf = .red then .ok (Path.fill p (setBlack f))
      else
        match rfStep f p with
        | .cont f2 p2 => removeFixupLoop fuel f2 p2
        | .done r => .ok (setBlack r) -- x = rb.root; the loop exits next test
        | .panic => .error .nilDeref

/-- Go `rbTree.removeFixup`. -/
def removeFixup {α : Type} (f : RTree α) (p : Path α) :
    Except RBPanic (RTree α) :=
  removeFixupLoop (2 * p.len + 2) f p

/-- Go `rbTree.remove` on the focused node.  With at most one child the
child is transplanted into the slot; with two children the minimum `y` of
the right subtree replaces `z` (keeping the color of `z`), `y.right` takes
the place of `y`, and the fixup runs at that spot when the color removed
from the tree (the original color of `y`) was black.  The context of
`x = y.right` is the context of `y` inside `z.right`, grafted under the
replaced node — in the Go code this information lives in the parent
pointers, `tNil.parent` included (the `x.parent = y` assignment).  The
`zoomMin` of a real tree always focuses a real node, so the last branch is
unreachable. -/
def removeAt {α : Type} (zc : Color) (zl zr : RTree α) (p : Path α) :
    Except RBPanic (RTree α) :=
  match zl with
  | .nil => if zc = .black then removeFixup zr p else .ok (Path.fill p zr)
  | .node _ _ _ _ =>
    match zr with
    | .nil => if zc = .black then removeFixup zl p else .ok (Path.fill p zl)
    | .node _ _ _ _ =>
      match zoomMin zr .root with
      | (.node yc _ yx yr, q) =>
        match Path.graft q (.right zc zl yx p) with
        | xp => if yc = .black then removeFixup yr xp else .ok (Path.fill xp yr)
      | (.nil, _) => .error .nilDeref

/-- Go `rbTree.Remove`: absent key gives `(false, nil)` untouched; else
`remove` the found node and decrement `length`. -/
def rbRemove {α : Type} (lt : α → α → Bool) (x : α) (st : RBState α) :
    Except RBPanic (RBState α × Bool × Option GoErr) :=
  match zoom lt x st.root .root with
  | (.nil, _) => .ok (st, false, none)
  | (.node zc zl _ zr, p) =>
    (removeAt zc zl zr p).map (fun r => (⟨r, st.length - 1⟩, true, none))

/-- Go `subTree.Remove`: out-of-range keys get `ErrorOutOfSubTreeRange`
and the backing tree is untouched; otherwise delegate to the tree. -/
def subRemove {α : Type} (lt : α → α → Bool) (s : SubT α) (x : α)
    (st : RBState α) : Except RBPanic (RBState α × Bool × Option GoErr) :=
  if !inRange lt s x then .ok (st, false, some .outOfSubTreeRange)
  else rbRemove lt x st

/-- Uniform black-height of a tree (`none` when some two root-to-sentinel
paths disagree); the sentinel counts one. -/
def blackHeight {α : Type} : RTree α → Option Nat
  | .nil => some 1
  | .node c l _ r =>
    match blackHeight l, blackHeight r with
    | some a, some b =>
      if a = b then some (a + (if c = .black then 1 else 0)) else none
    | _, _ => none

/-- No red node has a red child. -/
def noRedRed {α : Type} : RTree α → Bool
  | .nil => true
  | .node c l _ r =>
    (match c with
     | .red => !l.isRed && !r.isRed
     | .black => true) && noRedRed l && noRedRed r

/-- Strictly ascending list under `lt`. -/
def ascending {α : Type} (lt : α → α → Bool) : List α → Bool
  | [] => true
  | [_] => true
  | a :: b :: rest => lt a b && ascending lt (b :: rest)

/-- The four red-black invariants of the spec: black root, no red-red
edge, equal black-height on every root-to-sentinel path, strictly
ascending in-order key sequence. -/
def isRB {α : Type} (lt : α → α → Bool) (t : RTree α) : Bool :=
  !t.isRed && noRedRed t && (blackHeight t).isSome && ascending lt t.inorder

/-! Lawfulness of the comparison.  The Go `Item.Less` contract is a strict
weak order; all theorems below assume these laws.  `compatL`/`compatR` say
that items equal under the comparison compare alike against anything. -/

/-- Laws assumed of `Less`. -/
structure LawfulLT {α : Type} (lt : α → α → Bool) : Prop where
  irrefl : ∀ a, lt a a = false
  lt_trans : ∀ a b c, lt a b = true → lt b c = true → lt a c = true
  compatL : ∀ a b c, lt a b = false → lt b a = false → lt c a = lt c b
  compatR : ∀ a b c, lt a b = false → lt b a = false → lt a c = lt b c

/-- The integer comparison used by the Go tests (`IntItem.Less`). -/
def intLt : Int → Int → Bool := fun a b => decide (a < b)

/-- Bounded-items check used to state the search-tree property. -/
def allB {α : Type} (p : α → Bool) : RTree α → Bool
  | .nil => true
  | .node _ l x r => p x && allB p l && allB p r

/-- Search-tree property of a tree under `lt`. -/
def ordB {α : Type} (lt : α → α → Bool) : RTree α → Bool
  | .nil => true
  | .node _ l x r =>
    allB (fun a => lt a x) l && allB (fun a => lt x a) r && ordB lt l && ordB lt r

/-- Sortedness of the in-order list under `lt`. -/
def SortedLT {α : Type} (lt : α → α → Bool) (l : List α) : Prop :=
  List.Pairwise (fun a b => lt a b = true) l

/-- Shape of a tree with the items erased: structure and colors only. -/
def skeleton {α : Type} : RTree α → RTree Unit
  | .nil => .nil
  | .node c l _ r => .node c (skeleton l) () (skeleton r)

/-- All inserts of a list, left to right, as the Go loops in the tests do. -/
def insertList {α : Type} (lt : α → α → Bool) (l : List α) : RBState α :=
  l.foldl (fun st x => (rbInsert lt x st).1) newTree

/-- Items the wrapped iterator seeded `beforeFirst` at the given focus and
context will yield. -/
def streamOf {α : Type} : RTree α × Path α → List α
  | (.nil, _) => []
  | (.node _ _ x r, p) => x :: (r.inorder ++ p.rights)

/-- Item of the focused node, `none` for `tNil`. -/
def itemFp {α : Type} : RTree α × Path α → Option α
  | (.nil, _) => none
  | (.node _ _ y _, _) => some y

/-- Error component of a `Remove` result; a panic returns nothing, so it
carries no error either. -/
def errComponent {α : Type} :
    Except RBPanic (RBState α × Bool × Option GoErr) → Option GoErr
  | .ok r => r.2.2
  | .error _ => none

/-- Key sequence the Go test suite inserts (`TestIterator` and friends). -/
def testSeq : List Int := [41, 38, 31, 12, 19, 8, 9, 32, 6, 100, 2, -1, 57, 23, 21, 0, 0, 1]

/-- The 17-key tree the Go test suite builds. -/
def testTree : RBState Int := insertList intLt testSeq

theorem LawfulLT.asymm {α : Type} {lt : α → α → Bool} (h : LawfulLT lt)
    {a b : α} (hab : lt a b = true) : lt b a = false := by
  cases hba : lt b a
  · rfl
  · have := h.lt_trans a b a hab hba
    rw [h.irrefl] at this
    exact absurd this (by simp)

theorem intLt_lawful : LawfulLT intLt := by
  constructor
  · intro a
    simp [intLt]
  · intro a b c h1 h2
    simp only [intLt, decide_eq_true_eq] at *
    omega
  · intro a b c h1 h2
    simp only [intLt, decide_eq_false_iff_not, decide_eq_decide] at *
    omega
  · intro a b c h1 h2
    simp only [intLt, decide_eq_false_iff_not, decide_eq_decide] at *
    omega

theorem allB_iff {α : Type} (p : α → Bool) (t : RTree α) :
    allB p t = true ↔ ∀ a ∈ t.inorder, p a = true := by
  induction t with
  | nil => simp [allB, RTree.inorder]
  | node c l x r ihl ihr =>
    simp [allB, RTree.inorder, ihl, ihr, Bool.and_eq_true]
    constructor
    · rintro ⟨⟨hx, hl⟩, hr⟩ a ha
      rcases ha with ha | rfl | ha
      · exact hl a ha
      · exact hx
      · exact hr a ha
    · intro h
      exact ⟨⟨h x (by simp), fun a ha => h a (by simp [ha])⟩,
        fun a ha => h a (by simp [ha])⟩

theorem sorted_append_mid {α : Type} {lt : α → α → Bool} (h : LawfulLT lt)
    (A B : List α) (x : α) :
    SortedLT lt (A ++ x :: B) ↔
      SortedLT lt A ∧ SortedLT lt B ∧
        (∀ a ∈ A, lt a x = true) ∧ (∀ b ∈ B, lt x b = true) := by
  unfold SortedLT
  rw [List.pairwise_append]
  simp only [List.pairwise_cons, List.mem_cons]
  constructor
  · rintro ⟨hA, ⟨hxB, hB⟩, hcross⟩
    exact ⟨hA, hB, fun a ha => hcross a ha x (Or.inl rfl), hxB⟩
  · rintro ⟨hA, hB, hAx, hxB⟩
    refine ⟨hA, ⟨hxB, hB⟩, ?_⟩
    rintro a ha b (rfl | hb)
    · exact hAx a ha
    · exact h.lt_trans a x b (hAx a ha) (hxB b hb)

theorem ordB_iff_pairwise {α : Type} {lt : α → α → Bool} (h : LawfulLT lt)
    (t : RTree α) : ordB lt t = true ↔ SortedLT lt t.inorder := by
  induction t with
  | nil => simp [ordB, RTree.inorder, SortedLT]
  | node c l x r ihl ihr =>
    rw [show (RTree.node c l x r).inorder = l.inorder ++ x :: r.inorder from rfl,
      sorted_append_mid h]
    simp only [ordB, Bool.and_eq_true, allB_iff, ihl, ihr]
    tauto

theorem setBlack_inorder {α : Type} (t : RTree α) :
    (setBlack t).inorder = t.inorder := by
  cases t <;> rfl

theorem size_eq_length {α : Type} (t : RTree α) :
    t.size = t.inorder.length := by
  induction t with
  | nil => rfl
  | node c l x r ihl ihr =>
    simp [RTree.size, RTree.inorder, ihl, ihr]
    omega

theorem fill_inorder {α : Type} (p : Path α) (t : RTree α) :
    (p.fill t).inorder = p.lefts ++ t.inorder ++ p.rights := by
  induction p generalizing t with
  | root => simp [Path.fill, Path.lefts, Path.rights]
  | left c p x sib ih =>
    simp [Path.fill, Path.lefts, Path.rights, ih, RTree.inorder]
  | right c sib x p ih =>
    simp [Path.fill, Path.lefts, Path.rights, ih, RTree.inorder]

theorem zoom_fill {α : Type} (lt : α → α → Bool) (x : α) (t : RTree α)
    (p : Path α) :
    ((zoom lt x t p).2).fill (zoom lt x t p).1 = p.fill t := by
  induction t generalizing p with
  | nil => simp [zoom]
  | node c l y r ihl ihr =>
    simp only [zoom]
    split
    · rw [ihl]
      rfl
    · split
      · rw [ihr]
        rfl
      · rfl

theorem zoom_found {α : Type} {lt : α → α → Bool} {x : α} {t : RTree α}
    {p : Path α} {c : Color} {l : RTree α} {y : α} {r : RTree α} {q : Path α}
    (h : zoom lt x t p = (.node c l y r, q)) :
    lt x y = false ∧ lt y x = false := by
  induction t generalizing p with
  | nil => simp [zoom] at h
  | node c0 l0 y0 r0 ihl ihr =>
    simp only [zoom] at h
    split at h
    · exact ihl h
    · split at h
      · exact ihr h
      · rename_i h1 h2
        cases h
        exact ⟨Bool.not_eq_true _ ▸ h1, Bool.not_eq_true _ ▸ h2⟩

theorem zoom_bounds {α : Type} {lt : α → α → Bool} (h : LawfulLT lt) (x : α)
    (t : RTree α) (p : Path α) (hord : ordB lt t = true)
    (hL : ∀ a ∈ p.lefts, lt a x = true)
    (hR : ∀ b ∈ p.rights, lt x b = true) :
    (∀ a ∈ (zoom lt x t p).2.lefts, lt a x = true) ∧
      (∀ b ∈ (zoom lt x t p).2.rights, lt x b = true) := by
  induction t generalizing p with
  | nil => simpa [zoom] using ⟨hL, hR⟩
  | node c l y r ihl ihr =>
    simp only [ordB, Bool.and_eq_true] at hord
    obtain ⟨⟨⟨hly, hyr⟩, hordl⟩, hordr⟩ := hord
    rw [allB_iff] at hly hyr
    simp only [zoom]
    split
    · rename_i hxy
      refine ihl _ hordl ?_ ?_
      · intro a ha
        exact hL a ha
      · intro b hb
        simp only [Path.rights, List.mem_cons, List.mem_append] at hb
        rcases hb with rfl | hb | hb
        · exact hxy
        · exact h.lt_trans x y b hxy (hyr b hb)
        · exact hR b hb
    · split
      · rename_i hyx
        refine ihr _ hordr ?_ ?_
        · intro a ha
          simp only [Path.lefts, List.mem_append, List.mem_singleton] at ha
          rcases ha with ha | ha | rfl
          · exact hL a ha
          · exact h.lt_trans a y x (hly a ha) hyx
          · exact hyx
        · intro b hb
          exact hR b hb
      · exact ⟨hL, hR⟩

theorem insertFixup_inorder {α : Type} (t : RTree α) (p : Path α) :
    (insertFixup t p).inorder = (p.fill t).inorder := by
  induction t, p using insertFixup.induct <;>
    simp_all [insertFixup, Path.fill, fill_inorder, RTree.inorder,
      setBlack_inorder, Path.lefts, Path.rights]

theorem zoom_found_mem {α : Type} {lt : α → α → Bool} {x : α} {t : RTree α}
    {c : Color} {l : RTree α} {y : α} {r : RTree α} {q : Path α}
    (h : zoom lt x t .root = (.node c l y r, q)) : y ∈ t.inorder := by
  have hf := zoom_fill lt x t .root
  rw [h] at hf
  simp only [Path.fill] at hf
  rw [← hf, fill_inorder]
  simp [RTree.inorder]

theorem zoom_nil_split {α : Type} {lt : α → α → Bool} {x : α} {t : RTree α}
    {q : Path α} (h : zoom lt x t .root = (.nil, q)) :
    t.inorder = q.lefts ++ q.rights := by
  have hf := zoom_fill lt x t .root
  rw [h] at hf
  simp only [Path.fill] at hf
  rw [← hf, fill_inorder]
  simp [RTree.inorder]

theorem zoom_nil_of_absent {α : Type} {lt : α → α → Bool} {x : α}
    {t : RTree α}
    (habs : ∀ y ∈ t.inorder, lt x y = true ∨ lt y x = true) :
    (zoom lt x t .root).1 = .nil := by
  cases hz : zoom lt x t .root with
  | mk f q =>
    cases f with
    | nil => rfl
    | node c l y r =>
      obtain ⟨h1, h2⟩ := zoom_found hz
      rcases habs y (zoom_found_mem hz) with h | h
      · rw [h1] at h
        cases h
      · rw [h2] at h
        cases h

theorem pairwise_insert_mid {α : Type} {lt : α → α → Bool} (h : LawfulLT lt)
    {A B : List α} {x : α} (hAB : SortedLT lt (A ++ B))
    (hA : ∀ a ∈ A, lt a x = true) (hB : ∀ b ∈ B, lt x b = true) :
    SortedLT lt (A ++ x :: B) := by
  rw [sorted_append_mid h]
  exact ⟨List.Pairwise.sublist (List.sublist_append_left A B) hAB,
    List.Pairwise.sublist (List.sublist_append_right A B) hAB, hA, hB⟩

theorem pairwise_replace_mid {α : Type} {lt : α → α → Bool} (h : LawfulLT lt)
    {A B : List α} {x y : α} (hAB : SortedLT lt (A ++ y :: B))
    (hxy : lt x y = false) (hyx : lt y x = false) :
    SortedLT lt (A ++ x :: B) := by
  rw [sorted_append_mid h] at hAB ⊢
  obtain ⟨hA, hB, hAy, hyB⟩ := hAB
  refine ⟨hA, hB, ?_, ?_⟩
  · intro a ha
    rw [h.compatL x y a hxy hyx]
    exact hAy a ha
  · intro b hb
    rw [h.compatR x y b hxy hyx]
    exact hyB b hb

theorem rbInsert_spec_new {α : Type} {lt : α → α → Bool} (h : LawfulLT lt)
    (x : α) (st : RBState α) (hord : ordB lt st.root = true)
    (habs : ∀ y ∈ st.root.inorder, lt x y = true ∨ lt y x = true) :
    ordB lt (rbInsert lt x st).1.root = true ∧
      (rbInsert lt x st).1.root.inorder.Perm (x :: st.root.inorder) ∧
      (rbInsert lt x st).1.length = st.length + 1 ∧
      (rbInsert lt x st).2.1 = true := by
  have hz1 := zoom_nil_of_absent habs
  have hz : zoom lt x st.root .root = (.nil, (zoom lt x st.root .root).2) := by
    rw [← hz1]
  set q := (zoom lt x st.root .root).2 with hq
  have hsplit := zoom_nil_split hz
  have hbounds := zoom_bounds h x st.root .root hord
    (by simp [Path.lefts]) (by simp [Path.rights])
  rw [← hq] at hbounds
  have hnode : insertNode lt x st.root =
      (insertFixup (.node .red .nil x .nil) q, true) := by
    rw [insertNode, hz]
  have hio : (insertFixup (.node .red .nil x .nil) q).inorder =
      q.lefts ++ x :: q.rights := by
    rw [insertFixup_inorder, fill_inorder]
    simp [RTree.inorder]
  have hins : rbInsert lt x st =
      (⟨insertFixup (.node .red .nil x .nil) q, st.length + 1⟩, true, none) := by
    rw [rbInsert, hnode]
  rw [hins]
  refine ⟨?_, ?_, rfl, rfl⟩
  · rw [ordB_iff_pairwise h, hio]
    exact pairwise_insert_mid h
      (by rw [← hsplit, ← ordB_iff_pairwise h] ; exact hord)
      hbounds.1 hbounds.2
  · simp only [hio]
    rw [hsplit]
    exact List.perm_middle

theorem skeleton_fill_congr {α : Type} (p : Path α) {X Y : RTree α}
    (h : skeleton X = skeleton Y) :
    skeleton (p.fill X) = skeleton (p.fill Y) := by
  induction p generalizing X Y with
  | root => exact h
  | left c p x sib ih =>
    exact ih (by simp [skeleton, h])
  | right c sib x p ih =>
    exact ih (by simp [skeleton, h])

theorem zoom_find_exact {α : Type} {lt : α → α → Bool} (h : LawfulLT lt)
    {x y : α} {t : RTree α} (hord : ordB lt t = true) (hy : y ∈ t.inorder)
    (hxy : lt x y = false) (hyx : lt y x = false) :
    ∀ p, ∃ c l r q, zoom lt x t p = (.node c l y r, q) := by
  induction t with
  | nil => simp [RTree.inorder] at hy
  | node c0 l0 y0 r0 ihl ihr =>
    intro p
    simp only [ordB, Bool.and_eq_true] at hord
    obtain ⟨⟨⟨hly, hyr⟩, hordl⟩, hordr⟩ := hord
    rw [allB_iff] at hly hyr
    simp only [RTree.inorder, List.mem_append, List.mem_cons] at hy
    cases hxy0 : lt x y0 with
    | true =>
      have hyl : y ∈ l0.inorder := by
        rcases hy with hy | rfl | hy
        · exact hy
        · rw [hxy0] at hxy
          cases hxy
        · have h1 : lt y0 x = lt y0 y := h.compatL x y y0 hxy hyx
          rw [hyr y hy] at h1
          have := h.lt_trans x y0 x hxy0 h1
          rw [h.irrefl] at this
          cases this
      obtain ⟨c1, l1, r1, q1, hz⟩ := ihl hordl hyl (.left c0 p y0 r0)
      exact ⟨c1, l1, r1, q1, by simp [zoom, hxy0, hz]⟩
    | false =>
      cases hy0x : lt y0 x with
      | true =>
        have hyr0 : y ∈ r0.inorder := by
          rcases hy with hy | rfl | hy
          · have h1 : lt x y0 = lt y y0 := h.compatR x y y0 hxy hyx
            rw [hly y hy] at h1
            rw [h1] at hxy0
            cases hxy0
          · rw [hy0x] at hyx
            cases hyx
          · exact hy
        obtain ⟨c1, l1, r1, q1, hz⟩ := ihr hordr hyr0 (.right c0 l0 y0 p)
        exact ⟨c1, l1, r1, q1, by simp [zoom, hxy0, hy0x, hz]⟩
      | false =>
        have hyy0 : y = y0 := by
          rcases hy with hy | rfl | hy
          · have h1 : lt x y0 = lt y y0 := h.compatR x y y0 hxy hyx
            rw [hly y hy] at h1
            rw [h1] at hxy0
            cases hxy0
          · rfl
          · have h1 : lt y0 x = lt y0 y := h.compatL x y y0 hxy hyx
            rw [hyr y hy] at h1
            rw [h1] at hy0x
            cases hy0x
        exact ⟨c0, l0, r0, p, by simp [zoom, hxy0, hy0x, hyy0]⟩

theorem rbInsert_spec_found {α : Type} {lt : α → α → Bool} (h : LawfulLT lt)
    (x y : α) (st : RBState α) (hord : ordB lt st.root = true)
    (hy : y ∈ st.root.inorder) (hxy : lt x y = false) (hyx : lt y x = false) :
    ∃ A B, st.root.inorder = A ++ y :: B ∧
      (rbInsert lt x st).1.root.inorder = A ++ x :: B ∧
      (rbInsert lt x st).1.length = st.length ∧
      (rbInsert lt x st).2.1 = false ∧
      (rbInsert lt x st).2.2 = none ∧
      skeleton (rbInsert lt x st).1.root = skeleton st.root ∧
      ordB lt (rbInsert lt x st).1.root = true ∧
      rbFind lt x (rbInsert lt x st).1 = some x := by
  obtain ⟨c, l, r, q, hz⟩ := zoom_find_exact h hord hy hxy hyx .root
  have hfill : Path.fill q (.node c l y r) = st.root := by
    have := zoom_fill lt x st.root .root
    rw [hz] at this
    exact this
  have hnode : insertNode lt x st.root = (Path.fill q (.node c l x r), false) := by
    rw [insertNode, hz]
  have hins : rbInsert lt x st =
      (⟨Path.fill q (.node c l x r), st.length⟩, false, none) := by
    rw [rbInsert, hnode]
  refine ⟨q.lefts ++ l.inorder, r.inorder ++ q.rights, ?_, ?_, ?_, ?_, ?_, ?_, ?_, ?_⟩
  · rw [← hfill, fill_inorder]
    simp [RTree.inorder]
  · rw [hins]
    rw [fill_inorder]
    simp [RTree.inorder]
  · rw [hins]
  · rw [hins]
  · rw [hins]
  · rw [hins]
    have hsk : skeleton (Path.fill q (.node c l x r)) =
        skeleton (Path.fill q (.node c l y r)) :=
      skeleton_fill_congr q (by simp [skeleton])
    rw [hfill] at hsk
    exact hsk
  · rw [hins]
    rw [ordB_iff_pairwise h, fill_inorder]
    have hsor : SortedLT lt ((q.lefts ++ l.inorder) ++ y :: (r.inorder ++ q.rights)) := by
      have := (ordB_iff_pairwise h st.root).mp hord
      rw [← hfill, fill_inorder] at this
      simpa [RTree.inorder] using this
    have := pairwise_replace_mid h hsor hxy hyx
    simpa [RTree.inorder] using this
  · rw [hins]
    have hord2 : ordB lt (Path.fill q (.node c l x r)) = true := by
      rw [ordB_iff_pairwise h, fill_inorder]
      have hsor : SortedLT lt ((q.lefts ++ l.inorder) ++ y :: (r.inorder ++ q.rights)) := by
        have := (ordB_iff_pairwise h st.root).mp hord
        rw [← hfill, fill_inorder] at this
        simpa [RTree.inorder] using this
      have := pairwise_replace_mid h hsor hxy hyx
      simpa [RTree.inorder] using this
    have hxmem : x ∈ (Path.fill q (.node c l x r)).inorder := by
      rw [fill_inorder]
      simp [RTree.inorder]
    obtain ⟨c2, l2, r2, q2, hz2⟩ :=
      zoom_find_exact h hord2 hxmem (h.irrefl x) (h.irrefl x) Path.root
    rw [rbFind]
    rw [hz2]

theorem foldl_insert_inv {α : Type} {lt : α → α → Bool} (h : LawfulLT lt) :
    ∀ (l : List α) (st : RBState α) (seen : List α),
      ordB lt st.root = true →
      st.root.inorder.Perm seen →
      st.length = (seen.length : Int) →
      List.Pairwise (fun a b => lt a b = true ∨ lt b a = true) (seen ++ l) →
      ordB lt (l.foldl (fun s x => (rbInsert lt x s).1) st).root = true ∧
        (l.foldl (fun s x => (rbInsert lt x s).1) st).root.inorder.Perm (seen ++ l) ∧
        (l.foldl (fun s x => (rbInsert lt x s).1) st).length = ((seen ++ l).length : Int) := by
  intro l
  induction l with
  | nil =>
    intro st seen hord hperm hlen _
    simpa using ⟨hord, hperm, hlen⟩
  | cons x rest ih =>
    intro st seen hord hperm hlen hpw
    have habs : ∀ y ∈ st.root.inorder, lt x y = true ∨ lt y x = true := by
      intro y hy
      have hys : y ∈ seen := hperm.mem_iff.mp hy
      have := (List.pairwise_append.mp hpw).2.2 y hys x (by simp)
      tauto
    obtain ⟨hord2, hperm2, hlen2, _⟩ := rbInsert_spec_new h x st hord habs
    have hstep := ih (rbInsert lt x st).1 (seen ++ [x]) hord2
      (hperm2.trans ((hperm.cons x).trans (List.perm_append_singleton x seen).symm))
      (by rw [hlen2, hlen] ; simp [List.length_append])
      (by rw [List.append_assoc] ; simpa using hpw)
    rw [List.foldl_cons]
    refine ⟨hstep.1, ?_, ?_⟩
    · refine hstep.2.1.trans ?_
      rw [List.append_assoc]
      simp
    · rw [hstep.2.2]
      simp

theorem zoomMin_focus {α : Type} :
    ∀ (t : RTree α) (p : Path α), t ≠ .nil →
      ∃ c x r q, zoomMin t p = (.node c .nil x r, q) ∧
        x :: (r.inorder ++ q.rights) = t.inorder ++ p.rights := by
  intro t
  induction t with
  | nil => intro p hne; cases hne rfl
  | node c l x r ihl ihr =>
    intro p _
    cases l with
    | nil =>
      exact ⟨c, x, r, p, rfl, by simp [RTree.inorder]⟩
    | node lc ll lx lr =>
      obtain ⟨c2, x2, r2, q2, hz, hs⟩ :=
        ihl (.left c p x r) (by simp)
      refine ⟨c2, x2, r2, q2, by rw [zoomMin] ; exact hz, ?_⟩
      rw [hs]
      simp [RTree.inorder, Path.rights]

theorem climbUp_cases {α : Type} :
    ∀ (p : Path α) (t : RTree α),
      (∀ e, climbUp t p = .error e → p.rights = []) ∧
      (∀ c2 l2 x2 r2 p2, climbUp t p = .ok (.node c2 l2 x2 r2, p2) →
        x2 :: (r2.inorder ++ p2.rights) = p.rights) ∧
      (∀ p2, climbUp t p ≠ .ok (.nil, p2)) := by
  intro p
  induction p with
  | root =>
    intro t
    refine ⟨fun e _ => rfl, ?_, ?_⟩
    · intro c2 l2 x2 r2 p2 hk
      cases hk
    · intro p2 hk
      cases hk
  | left c p x sib ih =>
    intro t
    refine ⟨?_, ?_, ?_⟩
    · intro e hk
      cases hk
    · intro c2 l2 x2 r2 p2 hk
      rw [climbUp] at hk
      cases hk
      rfl
    · intro p2 hk
      rw [climbUp] at hk
      cases hk
  | right c sib x p ih =>
    intro t
    refine ⟨?_, ?_, ?_⟩
    · intro e hk
      rw [climbUp] at hk
      exact (ih (.node c sib x t)).1 e hk
    · intro c2 l2 x2 r2 p2 hk
      rw [climbUp] at hk
      exact (ih (.node c sib x t)).2.1 c2 l2 x2 r2 p2 hk
    · intro p2 hk
      rw [climbUp] at hk
      exact (ih (.node c sib x t)).2.2 p2 hk

theorem iterCollect_stream {α : Type} :
    ∀ (fuel : Nat) (c : Color) (l : RTree α) (x : α) (r : RTree α) (p : Path α),
      (r.inorder ++ p.rights).length ≤ fuel →
      iterCollect ⟨.node c l x r, p, .deferencable⟩ fuel = r.inorder ++ p.rights := by
  intro fuel
  induction fuel with
  | zero =>
    intro c l x r p hlen
    have : r.inorder ++ p.rights = [] := by
      cases hw : r.inorder ++ p.rights with
      | nil => rfl
      | cons a as => rw [hw] at hlen ; simp at hlen
    rw [this]
    rfl
  | succ fuel ih =>
    intro c l x r p hlen
    cases r with
    | node rc rl rx rr =>
      obtain ⟨c2, x2, r2, q2, hz, hs⟩ :=
        zoomMin_focus (.node rc rl rx rr) (.right c l x p) (by simp)
      have hnext : iterNext ⟨.node c l (x : α) (.node rc rl rx rr), p, .deferencable⟩ =
          (some x2, ⟨.node c2 .nil x2 r2, q2, .deferencable⟩) := by
        simp only [iterNext, hz]
      have hs2 : x2 :: (r2.inorder ++ q2.rights) =
          (RTree.node rc rl rx rr).inorder ++ p.rights := by
        simpa [Path.rights] using hs
      have hlen2 : (r2.inorder ++ q2.rights).length ≤ fuel := by
        have hle := congrArg List.length hs2
        simp only [List.length_cons, List.length_append] at hle hlen ⊢
        omega
      have hcol : iterCollect ⟨.node c l (x : α) (.node rc rl rx rr), p, .deferencable⟩ (fuel + 1) =
          x2 :: iterCollect ⟨.node c2 .nil x2 r2, q2, .deferencable⟩ fuel := by
        rw [iterCollect, hnext]
      rw [hcol, ih c2 .nil x2 r2 q2 hlen2]
      exact hs2
    | nil =>
      cases p with
      | root =>
        rw [iterCollect]
        simp [iterNext, RTree.inorder, Path.rights]
      | left pc pp pv psib =>
        have hcl := climbUp_cases (Path.left pc pp pv psib) (.node c l x .nil)
        cases hk : climbUp (RTree.node c l x RTree.nil) (Path.left pc pp pv psib) with
        | error t2 =>
          have : (Path.left pc pp pv psib).rights = [] := hcl.1 t2 hk
          rw [iterCollect]
          simp [iterNext, hk, RTree.inorder, this]
        | ok fp =>
          obtain ⟨f2, p2⟩ := fp
          cases f2 with
          | nil => exact absurd hk (hcl.2.2 p2)
          | node c2 l2 x2 r2 =>
            have hs := hcl.2.1 c2 l2 x2 r2 p2 hk
            have hnext : iterNext ⟨.node c l (x : α) .nil, .left pc pp pv psib, .deferencable⟩ =
                (some x2, ⟨.node c2 l2 x2 r2, p2, .deferencable⟩) := by
              simp only [iterNext, hk]
            have hlen2 : (r2.inorder ++ p2.rights).length ≤ fuel := by
              have hle := congrArg List.length hs
              simp only [List.length_cons, List.length_append, RTree.inorder,
                List.nil_append] at hle hlen ⊢
              omega
            have hcol : iterCollect ⟨.node c l (x : α) .nil, .left pc pp pv psib, .deferencable⟩ (fuel + 1) =
                x2 :: iterCollect ⟨.node c2 l2 x2 r2, p2, .deferencable⟩ fuel := by
              rw [iterCollect, hnext]
            rw [hcol, ih c2 l2 x2 r2 p2 hlen2]
            simpa [RTree.inorder] using hs
      | right pc psib pv pp =>
        have hcl := climbUp_cases (Path.right pc psib pv pp) (.node c l x .nil)
        cases hk : climbUp (RTree.node c l x RTree.nil) (Path.right pc psib pv pp) with
        | error t2 =>
          have : (Path.right pc psib pv pp).rights = [] := hcl.1 t2 hk
          rw [iterCollect]
          simp [iterNext, hk, RTree.inorder, this]
        | ok fp =>
          obtain ⟨f2, p2⟩ := fp
          cases f2 with
          | nil => exact absurd hk (hcl.2.2 p2)
          | node c2 l2 x2 r2 =>
            have hs := hcl.2.1 c2 l2 x2 r2 p2 hk
            have hnext : iterNext ⟨.node c l (x : α) .nil, .right pc psib pv pp, .deferencable⟩ =
                (some x2, ⟨.node c2 l2 x2 r2, p2, .deferencable⟩) := by
              simp only [iterNext, hk]
            have hlen2 : (r2.inorder ++ p2.rights).length ≤ fuel := by
              have hle := congrArg List.length hs
              simp only [List.length_cons, List.length_append, RTree.inorder,
                List.nil_append] at hle hlen ⊢
              omega
            have hcol : iterCollect ⟨.node c l (x : α) .nil, .right pc psib pv pp, .deferencable⟩ (fuel + 1) =
                x2 :: iterCollect ⟨.node c2 l2 x2 r2, p2, .deferencable⟩ fuel := by
              rw [iterCollect, hnext]
            rw [hcol, ih c2 l2 x2 r2 p2 hlen2]
            simpa [RTree.inorder] using hs

theorem iterCollect_beforeFirst {α : Type}
    (fuel : Nat) (c : Color) (l : RTree α) (x : α) (r : RTree α) (p : Path α)
    (hlen : (x :: (r.inorder ++ p.rights)).length ≤ fuel) :
    iterCollect ⟨.node c l x r, p, .beforeFirst⟩ fuel =
      x :: (r.inorder ++ p.rights) := by
  cases fuel with
  | zero => simp at hlen
  | succ fuel =>
    have hnext : iterNext ⟨.node c l (x : α) r, p, .beforeFirst⟩ =
        (some x, ⟨.node c l x r, p, .deferencable⟩) := by
      simp only [iterNext]
    have hcol : iterCollect ⟨.node c l (x : α) r, p, .beforeFirst⟩ (fuel + 1) =
        x :: iterCollect ⟨.node c l x r, p, .deferencable⟩ fuel := by
      rw [iterCollect, hnext]
    rw [hcol, iterCollect_stream fuel c l x r p
      (by simp only [List.length_cons, List.length_append] at hlen ⊢ ; omega)]

theorem iterCollect_nil {α : Type} (fuel : Nat) (p : Path α) (s : IState) :
    iterCollect (⟨.nil, p, s⟩ : Iter α) fuel = [] := by
  cases fuel with
  | zero => rfl
  | succ fuel => cases s <;> rfl

theorem traverse_spec {α : Type} (st : RBState α)
    (h0 : st.length = 0 ↔ st.root = .nil) :
    traverse st = .ok st.root.inorder := by
  by_cases hlen : st.length = 0
  · have hroot := h0.mp hlen
    rw [traverse, mkIterator]
    simp only [hlen]
    rw [hroot]
    simp [Except.map, iterCollect_nil, RTree.inorder]
  · cases hroot : st.root with
    | nil => exact absurd (h0.mpr hroot) hlen
    | node c l x r =>
      obtain ⟨c2, x2, r2, q2, hz, hs⟩ := zoomMin_focus (.node c l x r) .root (by simp)
      rw [traverse, mkIterator]
      have hb : (st.length == 0) = false := by
        simpa using hlen
      simp only [hb, Bool.false_eq_true, if_false, hroot, hz]
      simp only [Except.map]
      rw [iterCollect_beforeFirst ((RTree.node c l x r).size) c2 .nil x2 r2 q2 ?hfuel]
      · rw [hs]
        simp [Path.rights]
      case hfuel =>
        have hle := congrArg List.length hs
        rw [size_eq_length]
        simp only [List.length_cons, List.length_append, Path.rights,
          List.length_nil] at hle ⊢
        omega

theorem subCollect_eq_takeWhile {α : Type} (lt : α → α → Bool) :
    ∀ (fuel : Nat) (si : SubIter α),
      subCollect lt si fuel =
        (iterCollect si.iter fuel).takeWhile (fun a => !lt si.toKey a) := by
  intro fuel
  induction fuel with
  | zero => intro si ; rfl
  | succ fuel ih =>
    intro si
    obtain ⟨⟨f, p, s⟩, tk⟩ := si
    by_cases hst : s = IState.pastRear
    · subst hst
      rw [subCollect, iterCollect]
      simp [subNext, iterNext]
    · have hnp : ((⟨⟨f, p, s⟩, tk⟩ : SubIter α).iter.state = IState.pastRear) = False := by
        simpa using hst
      cases hni : iterNext ⟨f, p, s⟩ with
      | mk item it2 =>
        cases item with
        | none =>
          rw [subCollect, iterCollect]
          simp only [subNext, hnp]
          simp [hni]
        | some x =>
          cases hcmp : lt tk x with
          | true =>
            rw [subCollect, iterCollect]
            simp only [subNext, hnp]
            simp [hni, hcmp]
          | false =>
            rw [subCollect, iterCollect]
            simp only [subNext, hnp]
            simp [hni, hcmp, ih ⟨it2, tk⟩]

theorem dropWhile_append_all {α : Type} (q : α → Bool) (A B : List α)
    (h : ∀ a ∈ A, q a = true) :
    (A ++ B).dropWhile q = B.dropWhile q := by
  induction A with
  | nil => rfl
  | cons a A ih =>
    simp only [List.cons_append, List.dropWhile_cons, h a (by simp)]
    exact ih (fun b hb => h b (by simp [hb]))

theorem dropWhile_append_stop {α : Type} (q : α → Bool) (A B : List α) (y : α)
    (h : q y = false) :
    (A ++ y :: B).dropWhile q = A.dropWhile q ++ y :: B := by
  induction A with
  | nil => simp [List.dropWhile_cons, h]
  | cons a A ih =>
    simp only [List.cons_append, List.dropWhile_cons]
    cases hqa : q a with
    | true => simpa [hqa] using ih
    | false => simp [hqa]

theorem climbUp_streamOf {α : Type} (t : RTree α) (p : Path α) :
    streamOf (match climbUp t p with
      | .ok fp => fp
      | .error _ => ((.nil : RTree α), .root)) = p.rights := by
  have hcl := climbUp_cases p t
  cases hk : climbUp t p with
  | error e =>
    simp [streamOf, hcl.1 e hk]
  | ok fp =>
    obtain ⟨f2, p2⟩ := fp
    cases f2 with
    | nil => exact absurd hk (hcl.2.2 p2)
    | node c2 l2 x2 r2 =>
      simpa [streamOf] using hcl.2.1 c2 l2 x2 r2 p2 hk

theorem ceilingGo_stream {α : Type} {lt : α → α → Bool} (h : LawfulLT lt)
    (x : α) :
    ∀ (t : RTree α) (p : Path α), ordB lt t = true →
      (∀ e ∈ p.rights, lt e x = false) →
      (t = .nil → p = .root) →
      streamOf (ceilingGo lt x t p) =
        t.inorder.dropWhile (fun a => lt a x) ++ p.rights := by
  intro t
  induction t with
  | nil =>
    intro p _ _ hnil
    rw [hnil rfl]
    simp [ceilingGo, streamOf, RTree.inorder, Path.rights]
  | node c l y r ihl ihr =>
    intro p hord hR _
    have hordc := hord
    simp only [ordB, Bool.and_eq_true] at hordc
    obtain ⟨⟨⟨hly, hyr⟩, hordl⟩, hordr⟩ := hordc
    rw [allB_iff] at hly hyr
    cases hxy : lt x y with
    | true =>
      have hyxf : lt y x = false := h.asymm hxy
      cases l with
      | nil =>
        rw [ceilingGo.eq_def]
        simp only [hxy, if_true]
        simp only [streamOf, RTree.inorder]
        rw [List.nil_append, List.dropWhile_cons, hyxf]
        simp
      | node lc ll lx lr =>
        have hR2 : ∀ e ∈ (Path.left c p y r).rights, lt e x = false := by
          intro e he
          simp only [Path.rights, List.mem_cons, List.mem_append] at he
          rcases he with rfl | he | he
          · exact hyxf
          · cases hex : lt e x with
            | false => rfl
            | true =>
              have := h.lt_trans y e x (hyr e he) hex
              rw [this] at hyxf
              cases hyxf
          · exact hR e he
        have hrec := ihl (.left c p y r) hordl hR2 (by intro hne ; cases hne)
        rw [ceilingGo.eq_def]
        simp only [hxy, if_true]
        rw [hrec]
        show _ = ((RTree.node lc ll lx lr).inorder ++ y :: r.inorder).dropWhile
          (fun a => lt a x) ++ p.rights
        rw [dropWhile_append_stop (fun a => lt a x)
          (RTree.node lc ll lx lr).inorder r.inorder y hyxf]
        simp [Path.rights]
    | false =>
      cases hyx : lt y x with
      | true =>
        have hall : ∀ a ∈ l.inorder ++ [y], lt a x = true := by
          intro a ha
          simp only [List.mem_append, List.mem_singleton] at ha
          rcases ha with ha | rfl
          · exact h.lt_trans a y x (hly a ha) hyx
          · exact hyx
        cases r with
        | nil =>
          rw [ceilingGo.eq_def]
          simp only [hxy, hyx, if_true, Bool.false_eq_true, if_false]
          rw [climbUp_streamOf]
          show _ = ((l.inorder ++ y :: RTree.nil.inorder).dropWhile
            (fun a => lt a x)) ++ p.rights
          rw [List.append_cons, dropWhile_append_all (fun a => lt a x)
            (l.inorder ++ [y]) RTree.nil.inorder hall]
          simp [RTree.inorder, List.dropWhile]
        | node rc rl rx rr =>
          have hrec := ihr (.right c l y p) hordr
            (by simpa [Path.rights] using hR) (by intro hne ; cases hne)
          rw [ceilingGo.eq_def]
          simp only [hxy, hyx, if_true, Bool.false_eq_true, if_false]
          rw [hrec]
          show _ = ((l.inorder ++ y :: (RTree.node rc rl rx rr).inorder).dropWhile
            (fun a => lt a x)) ++ p.rights
          rw [List.append_cons, dropWhile_append_all (fun a => lt a x)
            (l.inorder ++ [y]) (RTree.node rc rl rx rr).inorder hall]
          simp [Path.rights]
      | false =>
        have hall : ∀ a ∈ l.inorder, lt a x = true := by
          intro a ha
          have h1 : lt a x = lt a y := h.compatL x y a hxy hyx
          rw [h1]
          exact hly a ha
        rw [ceilingGo.eq_def]
        simp only [hxy, hyx, Bool.false_eq_true, if_false]
        simp only [streamOf, RTree.inorder]
        rw [dropWhile_append_all (fun a => lt a x) l.inorder (y :: r.inorder) hall,
          List.dropWhile_cons, hyx]
        simp

theorem subTraverse_spec {α : Type} {lt : α → α → Bool} (h : LawfulLT lt)
    (s : SubT α) (st : RBState α) (hord : ordB lt st.root = true) :
    subTraverse lt s st =
      (st.root.inorder.dropWhile (fun a => lt a s.fromKey)).takeWhile
        (fun a => !lt s.toKey a) := by
  have hstream := ceilingGo_stream h s.fromKey st.root .root hord
    (by simp [Path.rights]) (fun _ => rfl)
  rw [subTraverse, subMkIterator]
  cases hcg : ceilingGo lt s.fromKey st.root .root with
  | mk f q =>
    rw [hcg] at hstream
    rw [subCollect_eq_takeWhile]
    simp only [Path.rights, List.append_nil] at hstream
    cases f with
    | nil =>
      rw [iterCollect_nil]
      simp only [streamOf] at hstream
      rw [← hstream]
    | node c2 l2 x2 r2 =>
      simp only [streamOf] at hstream
      have hfuel : (x2 :: (r2.inorder ++ q.rights)).length ≤ st.root.size + 1 := by
        have hle := congrArg List.length hstream
        have hdle : (st.root.inorder.dropWhile (fun a => lt a s.fromKey)).length ≤
            st.root.inorder.length :=
          List.Sublist.length_le (List.dropWhile_sublist _)
        rw [size_eq_length]
        simp only [List.length_cons, List.length_append] at hle ⊢
        omega
      rw [iterCollect_beforeFirst (st.root.size + 1) c2 l2 x2 r2 q hfuel]
      rw [hstream]

theorem filter_all_true {α : Type} (q : α → Bool) (A : List α)
    (h : ∀ a ∈ A, q a = true) : A.filter q = A :=
  List.filter_eq_self.mpr h

theorem filter_all_false {α : Type} (q : α → Bool) (A : List α)
    (h : ∀ a ∈ A, q a = false) : A.filter q = [] :=
  List.filter_eq_nil_iff.mpr (by simpa using h)

theorem floorClimb_cases {α : Type} :
    ∀ (p : Path α) (t : RTree α),
      (∀ e, floorClimb t p = .error e → p.lefts = []) ∧
      (∀ c2 l2 x2 r2 p2, floorClimb t p = .ok (.node c2 l2 x2 r2, p2) →
        p.lefts.getLast? = some x2) ∧
      (∀ p2, floorClimb t p ≠ .ok (.nil, p2)) := by
  intro p
  induction p with
  | root =>
    intro t
    refine ⟨fun e _ => rfl, ?_, ?_⟩
    · intro c2 l2 x2 r2 p2 hk
      cases hk
    · intro p2 hk
      cases hk
  | left c p x sib ih =>
    intro t
    refine ⟨?_, ?_, ?_⟩
    · intro e hk
      rw [floorClimb] at hk
      exact (ih (.node c t x sib)).1 e hk
    · intro c2 l2 x2 r2 p2 hk
      rw [floorClimb] at hk
      exact (ih (.node c t x sib)).2.1 c2 l2 x2 r2 p2 hk
    · intro p2 hk
      rw [floorClimb] at hk
      exact (ih (.node c t x sib)).2.2 p2 hk
  | right c sib x p ih =>
    intro t
    refine ⟨?_, ?_, ?_⟩
    · intro e hk
      cases hk
    · intro c2 l2 x2 r2 p2 hk
      rw [floorClimb] at hk
      cases hk
      simp only [Path.lefts]
      rw [show p.lefts ++ (sib.inorder ++ [x]) =
        (p.lefts ++ sib.inorder) ++ [x] by simp]
      exact List.getLast?_concat _
    · intro p2 hk
      rw [floorClimb] at hk
      cases hk

theorem floorClimb_itemFp {α : Type} (t : RTree α) (p : Path α) :
    itemFp (match floorClimb t p with
      | .ok fp => fp
      | .error _ => ((.nil : RTree α), .root)) = p.lefts.getLast? := by
  have hcl := floorClimb_cases p t
  cases hk : floorClimb t p with
  | error e =>
    simp [itemFp, hcl.1 e hk]
  | ok fp =>
    obtain ⟨f2, p2⟩ := fp
    cases f2 with
    | nil => exact absurd hk (hcl.2.2 p2)
    | node c2 l2 x2 r2 =>
      simpa [itemFp] using (hcl.2.1 c2 l2 x2 r2 p2 hk).symm

theorem floorGo_item {α : Type} {lt : α → α → Bool} (h : LawfulLT lt)
    (x : α) :
    ∀ (t : RTree α) (p : Path α), ordB lt t = true →
      (∀ e ∈ p.lefts, lt x e = false) →
      (t = .nil → p = .root) →
      itemFp (floorGo lt x t p) =
        (p.lefts ++ t.inorder.filter (fun a => !lt x a)).getLast? := by
  intro t
  induction t with
  | nil =>
    intro p _ _ hnil
    rw [hnil rfl]
    simp [floorGo, itemFp, RTree.inorder, Path.lefts]
  | node c l y r ihl ihr =>
    intro p hord hL _
    have hordc := hord
    simp only [ordB, Bool.and_eq_true] at hordc
    obtain ⟨⟨⟨hly, hyr⟩, hordl⟩, hordr⟩ := hordc
    rw [allB_iff] at hly hyr
    cases hyx : lt y x with
    | true =>
      have hxyf : lt x y = false := h.asymm hyx
      have hkeepl : ∀ a ∈ l.inorder, (!lt x a) = true := by
        intro a ha
        have h1 := h.lt_trans a y x (hly a ha) hyx
        have h2 := h.asymm h1
        simp [h2]
      cases r with
      | nil =>
        rw [floorGo.eq_def]
        simp only [hyx, if_true]
        simp only [itemFp, RTree.inorder]
        rw [List.filter_append, filter_all_true _ l.inorder hkeepl]
        rw [show (([y] : List α).filter (fun a => !lt x a)) = [y] from by
          simp [List.filter, hxyf]]
        rw [show p.lefts ++ (l.inorder ++ [y]) = (p.lefts ++ l.inorder) ++ [y] from
          by simp]
        exact (List.getLast?_concat _).symm
      | node rc rl rx rr =>
        have hL2 : ∀ e ∈ (Path.right c l y p).lefts, lt x e = false := by
          intro e he
          simp only [Path.lefts, List.mem_append, List.mem_singleton] at he
          rcases he with he | he | rfl
          · exact hL e he
          · cases hex : lt x e with
            | false => rfl
            | true =>
              have h1 := h.lt_trans x e y hex
                (hly e he)
              rw [h1] at hxyf
              cases hxyf
          · exact hxyf
        have hrec := ihr (.right c l y p) hordr hL2 (by intro hne ; cases hne)
        rw [floorGo.eq_def]
        simp only [hyx, if_true]
        rw [hrec]
        show _ = (p.lefts ++ (l.inorder ++ y :: (RTree.node rc rl rx rr).inorder).filter
          (fun a => !lt x a)).getLast?
        rw [List.append_cons, List.filter_append, List.filter_append,
          filter_all_true _ l.inorder hkeepl]
        rw [show (([y] : List α).filter (fun a => !lt x a)) = [y] from by
          simp [List.filter, hxyf]]
        simp [Path.lefts]
    | false =>
      cases hxy : lt x y with
      | true =>
        have hdropr : ∀ a ∈ y :: r.inorder, (!lt x a) = false := by
          intro a ha
          rcases List.mem_cons.mp ha with rfl | ha
          · simp [hxy]
          · have h1 := h.lt_trans x y a hxy (hyr a ha)
            simp [h1]
        cases l with
        | nil =>
          rw [floorGo.eq_def]
          simp only [hyx, hxy, if_true, Bool.false_eq_true, if_false]
          rw [floorClimb_itemFp]
          show _ = (p.lefts ++ (RTree.nil.inorder ++ y :: r.inorder).filter
            (fun a => !lt x a)).getLast?
          rw [show RTree.nil.inorder ++ y :: r.inorder = y :: r.inorder from by
            simp [RTree.inorder]]
          rw [filter_all_false _ _ hdropr]
          simp
        | node lc ll lx lr =>
          have hrec := ihl (.left c p y r) hordl (by simpa [Path.lefts] using hL)
            (by intro hne ; cases hne)
          rw [floorGo.eq_def]
          simp only [hyx, hxy, if_true, Bool.false_eq_true, if_false]
          rw [hrec]
          show _ = (p.lefts ++ ((RTree.node lc ll lx lr).inorder ++ y :: r.inorder).filter
            (fun a => !lt x a)).getLast?
          rw [List.filter_append, filter_all_false _ _ hdropr]
          simp [Path.lefts]
      | false =>
        have hkeepl : ∀ a ∈ l.inorder, (!lt x a) = true := by
          intro a ha
          have h1 : lt x a = lt y a := h.compatR x y a hxy hyx
          have h2 := h.asymm (hly a ha)
          simp [h1, h2]
        have hdropr : ∀ a ∈ r.inorder, (!lt x a) = false := by
          intro a ha
          have h1 : lt x a = lt y a := h.compatR x y a hxy hyx
          simp [h1, hyr a ha]
        rw [floorGo.eq_def]
        simp only [hyx, hxy, Bool.false_eq_true, if_false]
        simp only [itemFp, RTree.inorder]
        rw [List.append_cons, List.filter_append, List.filter_append,
          filter_all_true _ l.inorder hkeepl, filter_all_false _ _ hdropr]
        rw [show (([y] : List α).filter (fun a => !lt x a)) = [y] from by
          simp [List.filter, hxy]]
        rw [List.append_nil, show p.lefts ++ (l.inorder ++ [y]) =
          (p.lefts ++ l.inorder) ++ [y] from by simp]
        exact (List.getLast?_concat _).symm

theorem sorted_dropWhile_filter {α : Type} {lt : α → α → Bool}
    (h : LawfulLT lt) (k : α) :
    ∀ l : List α, SortedLT lt l →
      l.dropWhile (fun a => lt a k) = l.filter (fun a => !lt a k) := by
  intro l
  induction l with
  | nil =>
    intro _
    rfl
  | cons a as ih =>
    intro hs
    rw [SortedLT, List.pairwise_cons] at hs
    obtain ⟨ha, hs⟩ := hs
    rw [List.dropWhile_cons, List.filter_cons]
    cases hak : lt a k with
    | true =>
      simp only [hak, if_true, Bool.not_true, Bool.false_eq_true, if_false]
      exact ih hs
    | false =>
      simp only [hak, Bool.false_eq_true, if_false, Bool.not_false, if_true]
      rw [filter_all_true]
      intro b hb
      cases hbk : lt b k with
      | false => simp
      | true =>
        have := h.lt_trans a b k (ha b hb) hbk
        rw [this] at hak
        cases hak

theorem sorted_takeWhile_filter {α : Type} {lt : α → α → Bool}
    (h : LawfulLT lt) (k : α) :
    ∀ l : List α, SortedLT lt l →
      l.takeWhile (fun a => !lt k a) = l.filter (fun a => !lt k a) := by
  intro l
  induction l with
  | nil =>
    intro _
    rfl
  | cons a as ih =>
    intro hs
    rw [SortedLT, List.pairwise_cons] at hs
    obtain ⟨ha, hs⟩ := hs
    rw [List.takeWhile_cons, List.filter_cons]
    cases hka : lt k a with
    | true =>
      simp only [hka, Bool.not_true, Bool.false_eq_true, if_false]
      rw [filter_all_false]
      intro b hb
      have := h.lt_trans k a b hka (ha b hb)
      simp [this]
    | false =>
      simp only [hka, Bool.not_false, if_true]
      rw [ih hs]

theorem sorted_filter_sorted {α : Type} {lt : α → α → Bool} (q : α → Bool) :
    ∀ l : List α, SortedLT lt l → SortedLT lt (l.filter q) :=
  fun l hs => List.Pairwise.sublist (List.filter_sublist l) hs

theorem sorted_getLast_not_lt {α : Type} {lt : α → α → Bool}
    (h : LawfulLT lt) :
    ∀ (L : List α) (m : α), SortedLT lt L → L.getLast? = some m →
      ∀ k ∈ L, lt m k = false := by
  intro L
  induction L with
  | nil =>
    intro m _ hm
    cases hm
  | cons a as ih =>
    intro m hs hm k hk
    rw [SortedLT, List.pairwise_cons] at hs
    obtain ⟨ha, hs⟩ := hs
    cases as with
    | nil =>
      cases hm
      rcases List.mem_singleton.mp hk with rfl
      exact h.irrefl k
    | cons b bs =>
      rw [List.getLast?_cons_cons] at hm
      have hmbs : m ∈ b :: bs := by
        obtain ⟨hne, heq⟩ := List.mem_getLast?_eq_getLast (Option.mem_def.mpr hm)
        rw [heq]
        exact List.getLast_mem hne
      rcases List.mem_cons.mp hk with rfl | hk
      · exact h.asymm (ha m hmbs)
      · exact ih m hs hm k hk

theorem sorted_getLast_of_top {α : Type} {lt : α → α → Bool} :
    ∀ (L : List α) (k : α), SortedLT lt L → k ∈ L →
      (∀ e ∈ L, lt k e = false) → L.getLast? = some k := by
  intro L
  induction L with
  | nil =>
    intro k _ hk
    cases hk
  | cons a as ih =>
    intro k hs hk htop
    rw [SortedLT, List.pairwise_cons] at hs
    obtain ⟨ha, hs⟩ := hs
    cases as with
    | nil =>
      rcases List.mem_singleton.mp hk with rfl
      rfl
    | cons b bs =>
      rw [List.getLast?_cons_cons]
      rcases List.mem_cons.mp hk with rfl | hk
      · have := htop b (by simp)
        rw [ha b (by simp)] at this
        cases this
      · exact ih k hs hk (fun e he => htop e (by simp [he]))

theorem inorder_eq_nil_iff {α : Type} (t : RTree α) :
    t.inorder = [] ↔ t = .nil := by
  cases t with
  | nil => simp [RTree.inorder]
  | node c l x r => simp [RTree.inorder]

theorem subMax_itemFp {α : Type} (lt : α → α → Bool) (s : SubT α)
    (st : RBState α) :
    subMax lt s st = itemFp (floorGo lt s.toKey st.root .root) := by
  rw [subMax]
  cases hf : floorGo lt s.toKey st.root .root with
  | mk f q =>
    cases f with
    | nil => rfl
    | node c2 l2 x2 r2 => rfl

theorem subMax_spec {α : Type} {lt : α → α → Bool} (h : LawfulLT lt)
    (s : SubT α) (st : RBState α) (hord : ordB lt st.root = true) :
    subMax lt s st =
      (st.root.inorder.filter (fun a => !lt s.toKey a)).getLast? := by
  rw [subMax_itemFp]
  rw [floorGo_item h s.toKey st.root .root hord (by simp [Path.lefts])
    (fun _ => rfl)]
  simp [Path.lefts]

/-- C5: inserting an item equal under the comparison to a stored item `y`
overwrites the stored item in place: no structural or color change
(`skeleton` unchanged), `inserted = false`, no error, `Len()` unchanged,
the in-order sequence has `y` replaced by the new item at the same
position, and a subsequent `Find` returns the most recently inserted
item. -/
theorem c5_insert_replaces_in_place {α : Type} {lt : α → α → Bool}
    (h : LawfulLT lt) (x y : α) (st : RBState α)
    (hord : ordB lt st.root = true) (hy : y ∈ st.root.inorder)
    (hxy : lt x y = false) (hyx : lt y x = false) :
    (rbInsert lt x st).2.1 = false ∧
      (rbInsert lt x st).2.2 = none ∧
      rbLen (rbInsert lt x st).1 = rbLen st ∧
      skeleton (rbInsert lt x st).1.root = skeleton st.root ∧
      rbFind lt x (rbInsert lt x st).1 = some x ∧
      ∃ A B, st.root.inorder = A ++ y :: B ∧
        (rbInsert lt x st).1.root.inorder = A ++ x :: B := by
  obtain ⟨A, B, h1, h2, h3, h4, h5, h6, _, h8⟩ :=
    rbInsert_spec_found h x y st hord hy hxy hyx
  exact ⟨h4, h5, by rw [rbLen, rbLen, h3], h6, h8, A, B, h1, h2⟩

/-- Witness for C5 at the test tree: re-inserting the stored key 31. -/
theorem c5_witness :
    (rbInsert intLt 31 testTree).2.1 = false ∧
      rbLen (rbInsert intLt 31 testTree).1 = rbLen testTree :=
  ⟨(c5_insert_replaces_in_place intLt_lawful 31 31 testTree (by decide)
      (by decide) (by decide) (by decide)).1,
    (c5_insert_replaces_in_place intLt_lawful 31 31 testTree (by decide)
      (by decide) (by decide) (by decide)).2.2.1⟩

/-- C6: inserting pairwise-distinct keys in any order and iterating with
`NewIterator` yields exactly those keys in ascending order, and `Len()`
equals their number. -/
theorem c6_round_trip {α : Type} {lt : α → α → Bool} (h : LawfulLT lt)
    (l : List α)
    (hd : List.Pairwise (fun a b => lt a b = true ∨ lt b a = true) l) :
    ∃ res : List α, traverse (insertList lt l) = .ok res ∧
      res.Perm l ∧ SortedLT lt res ∧
      rbLen (insertList lt l) = (l.length : Int) := by
  obtain ⟨hord, hperm, hlen⟩ := foldl_insert_inv h l newTree []
    (by rfl) (by simp [newTree, RTree.inorder]) (by rfl) (by simpa using hd)
  have hfold : insertList lt l = l.foldl (fun s x => (rbInsert lt x s).1) newTree := rfl
  rw [← hfold] at hord hperm hlen
  simp only [List.nil_append] at hperm hlen
  refine ⟨(insertList lt l).root.inorder, ?_, hperm, ?_, ?_⟩
  · apply traverse_spec
    constructor
    · intro h0
      rw [hlen] at h0
      have hl0 : l.length = 0 := by exact_mod_cast h0
      rw [← inorder_eq_nil_iff]
      have hle := hperm.length_eq
      rw [hl0] at hle
      exact List.eq_nil_of_length_eq_zero hle
    · intro h0
      rw [hlen]
      have := hperm.length_eq
      rw [h0] at this
      simp [RTree.inorder] at this
      simp [← this]
  · rw [← ordB_iff_pairwise h]
    exact hord
  · rw [rbLen, hlen]

/-- Witness for C6 at a concrete distinct key list. -/
theorem c6_witness :
    ∃ res : List Int, traverse (insertList intLt [3, 1, 2]) = .ok res ∧
      res.Perm [3, 1, 2] ∧ SortedLT intLt res ∧
      rbLen (insertList intLt [3, 1, 2]) = (([3, 1, 2] : List Int).length : Int) :=
  c6_round_trip intLt_lawful [3, 1, 2] (by decide)

/-- C7: the sub-tree `Max` is the item of `floor(backing root, toKey)`,
the greatest stored key not above `toKey`; in particular a stored key
equal to `toKey` is returned even though `toKey` is the exclusive bound of
the view. -/
theorem c7_submax_floor {α : Type} {lt : α → α → Bool} (h : LawfulLT lt)
    (s : SubT α) (st : RBState α) (hord : ordB lt st.root = true) :
    subMax lt s st =
        (st.root.inorder.filter (fun a => !lt s.toKey a)).getLast? ∧
      (∀ m, subMax lt s st = some m →
        m ∈ st.root.inorder ∧ lt s.toKey m = false ∧
          ∀ k ∈ st.root.inorder, lt s.toKey k = false → lt m k = false) ∧
      (s.toKey ∈ st.root.inorder → subMax lt s st = some s.toKey) := by
  have hmain := subMax_spec h s st hord
  have hsor : SortedLT lt (st.root.inorder.filter (fun a => !lt s.toKey a)) :=
    sorted_filter_sorted _ _ ((ordB_iff_pairwise h st.root).mp hord)
  refine ⟨hmain, ?_, ?_⟩
  · intro m hm
    rw [hmain] at hm
    have hmem : m ∈ st.root.inorder.filter (fun a => !lt s.toKey a) := by
      obtain ⟨hne, heq⟩ := List.mem_getLast?_eq_getLast (Option.mem_def.mpr hm)
      rw [heq]
      exact List.getLast_mem hne
    refine ⟨List.mem_of_mem_filter hmem, by simpa using List.of_mem_filter hmem, ?_⟩
    intro k hk hkto
    exact sorted_getLast_not_lt h _ m hsor hm k
      (List.mem_filter.mpr ⟨hk, by simp [hkto]⟩)
  · intro hto
    rw [hmain]
    apply sorted_getLast_of_top _ s.toKey hsor
    · exact List.mem_filter.mpr ⟨hto, by simp [h.irrefl]⟩
    · intro e he
      have := List.of_mem_filter he
      simpa using this

/-- Witness for C7: in the test tree, `Max` of the view bounded by
`toKey = 31` returns the stored key 31 itself. -/
theorem c7_witness : subMax intLt ⟨5, 31⟩ testTree = some 31 :=
  (c7_submax_floor intLt_lawful ⟨5, 31⟩ testTree (by decide)).2.2 (by decide)

/-- C9: removing an item whose key is not stored returns `(false, nil)`
leaving the state untouched, and `Find` reports absence. -/
theorem c9_remove_missing {α : Type} {lt : α → α → Bool} (x : α)
    (st : RBState α)
    (habs : ∀ y ∈ st.root.inorder, lt x y = true ∨ lt y x = true) :
    rbRemove lt x st = .ok (st, false, none) ∧ rbFind lt x st = none := by
  have h1 := zoom_nil_of_absent habs
  have hz : zoom lt x st.root .root = (.nil, (zoom lt x st.root .root).2) := by
    rw [← h1]
  constructor
  · rw [rbRemove, hz]
  · rw [rbFind, hz]

/-- Witness for C9: the key 7 is absent from the test tree. -/
theorem c9_witness :
    rbRemove intLt 7 testTree = .ok (testTree, false, none) ∧
      rbFind intLt 7 testTree = none :=
  c9_remove_missing 7 testTree (by decide)

/-- C10: on a plain tree the error component of `Insert` is always `nil`,
and a `Remove` that returns carries a `nil` error as well: only the
sub-tree view constructs a non-nil error. -/
theorem c10_plain_tree_errors_nil {α : Type} (lt : α → α → Bool) (x : α)
    (st : RBState α) :
    (rbInsert lt x st).2.2 = none ∧
      errComponent (rbRemove lt x st) = none := by
  constructor
  · rw [rbInsert]
    cases insertNode lt x st.root with
    | mk t b => cases b <;> rfl
  · rw [rbRemove]
    cases hz : zoom lt x st.root .root with
    | mk f q =>
      cases f with
      | nil => rfl
      | node zc zl zx zr =>
        show errComponent ((removeAt zc zl zr q).map
          (fun r => ((⟨r, st.length - 1⟩ : RBState α), true, none))) = none
        cases removeAt zc zl zr q with
        | error e => rfl
        | ok v => rfl

/-- C1: the red-black invariants do not survive every `Insert`/`Remove`
sequence.  Inserting 2, 1, 4, 3 builds a valid red-black tree, but
`Remove(1)` then panics: the delete-fixup case 3 sets `x = x.parent`
instead of refreshing the sibling as CLRS does, so case 4 runs on the
grandparent — here `tNil` — and `leftRotate(tNil)` dereferences the Go
`nil` pointer stored in `tNil.right`. -/
theorem c1_remove_breaks_invariants :
    isRB intLt (insertList intLt [2, 1, 4, 3]).root = true ∧
      rbRemove intLt 1 (insertList intLt [2, 1, 4, 3]) =
        .error .nilDeref := by
  constructor
  · decide
  · decide

/-- C2 counterexample: over the test keys, the view bounded by
`[5, 31)` does not yield the claimed `6, 8, 9, 12, 19, 21, 23` — the
stored key 31, equal to the exclusive bound, is yielded as well (the Go
test itself expects it). -/
theorem c2_counterexample :
    subTraverse intLt ⟨5, 31⟩ testTree ≠ [6, 8, 9, 12, 19, 21, 23] := by
  decide

/-- C2 amended: the view yields exactly the stored keys `k` with
`fromKey <= k` and `k <= toKey` — the upper bound is inclusive, because
`subIterator.Next` only stops on `toKey.Less(item)` — in ascending order;
for bounds `[5, 31)` over the test keys that is
`6, 8, 9, 12, 19, 21, 23, 31`. -/
theorem c2_amended :
    (∀ (α : Type) (lt : α → α → Bool), LawfulLT lt →
      ∀ (s : SubT α) (st : RBState α), ordB lt st.root = true →
        subTraverse lt s st =
          st.root.inorder.filter (fun a => !lt s.toKey a && !lt a s.fromKey) ∧
        SortedLT lt (subTraverse lt s st)) ∧
    subTraverse intLt ⟨5, 31⟩ testTree = [6, 8, 9, 12, 19, 21, 23, 31] := by
  constructor
  · intro α lt h s st hord
    have hsor := (ordB_iff_pairwise h st.root).mp hord
    have h1 := subTraverse_spec h s st hord
    rw [sorted_dropWhile_filter h s.fromKey _ hsor] at h1
    rw [sorted_takeWhile_filter h s.toKey _ (sorted_filter_sorted _ _ hsor)] at h1
    rw [List.filter_filter] at h1
    refine ⟨h1, ?_⟩
    rw [h1]
    exact sorted_filter_sorted _ _ hsor
  · decide

/-- Witness for the amended C2 at the test tree. -/
theorem c2_amended_witness :
    subTraverse intLt ⟨11, 1000⟩ testTree =
      testTree.root.inorder.filter (fun a => !intLt 1000 a && !intLt a 11) :=
  (c2_amended.1 Int intLt intLt_lawful ⟨11, 1000⟩ testTree (by decide)).1

/-- C3 counterexample: the key 1000 equals the (supposedly exclusive)
`toKey` of the view `[11, 1000)`, yet `Insert` through the view reports
no error, answers `inserted = true`, and grows the backing tree from 17
to 18 keys. -/
theorem c3_counterexample :
    (subInsert intLt ⟨11, 1000⟩ 1000 testTree).2.2 = none ∧
      (subInsert intLt ⟨11, 1000⟩ 1000 testTree).2.1 = true ∧
      rbLen (subInsert intLt ⟨11, 1000⟩ 1000 testTree).1 = 18 := by
  refine ⟨?_, ?_, ?_⟩ <;> decide

/-- C3 amended: `inRange` accepts `fromKey <= key <= toKey` (the upper
bound inclusive).  A key below `fromKey` or strictly above `toKey` makes
`Insert`/`Remove` return `ErrorOutOfSubTreeRange` leaving the backing
tree untouched and makes `Find` answer absent; any other key delegates
the operation unchanged to the backing tree. -/
theorem c3_amended :
    ∀ (α : Type) (lt : α → α → Bool) (s : SubT α) (x : α) (st : RBState α),
      ((lt x s.fromKey = true ∨ lt s.toKey x = true) →
        subInsert lt s x st = (st, false, some .outOfSubTreeRange) ∧
          subRemove lt s x st = .ok (st, false, some .outOfSubTreeRange) ∧
          subFind lt s x st = none) ∧
      (lt x s.fromKey = false → lt s.toKey x = false →
        subInsert lt s x st = rbInsert lt x st ∧
          subRemove lt s x st = rbRemove lt x st ∧
          subFind lt s x st = rbFind lt x st) := by
  intro α lt s x st
  constructor
  · intro hout
    have hr : inRange lt s x = false := by
      rcases hout with hcase | hcase <;> simp [inRange, hcase]
    refine ⟨?_, ?_, ?_⟩ <;> simp [subInsert, subRemove, subFind, hr]
  · intro h1 h2
    have hr : inRange lt s x = true := by simp [inRange, h1, h2]
    refine ⟨?_, ?_, ?_⟩ <;> simp [subInsert, subRemove, subFind, hr]

/-- Witness for the amended C3: key 5 is below the view `[11, 1000)` and
is rejected; key 500 is inside and `Find` delegates. -/
theorem c3_amended_witness :
    subInsert intLt ⟨11, 1000⟩ 5 testTree =
        (testTree, false, some .outOfSubTreeRange) ∧
      subFind intLt ⟨11, 1000⟩ 500 testTree = rbFind intLt 500 testTree :=
  ⟨((c3_amended Int intLt ⟨11, 1000⟩ 5 testTree).1 (Or.inl (by decide))).1,
    ((c3_amended Int intLt ⟨11, 1000⟩ 500 testTree).2 (by decide) (by decide)).2.2⟩

/-- C4: `Min()`/`Max()` on the empty tree do not signal absence — they
panic following the Go `nil` pointer stored in the sentinel's child
fields.  On a view whose range holds no keys, `Min` does answer absent,
but `Max` can return a key below `fromKey` (here 100 for the empty view
`[200, 1000)` of the test tree) because `floor(toKey)` never checks the
lower bound. -/
theorem c4_empty_min_max :
    rbMin (newTree : RBState Int) = .error .nilDeref ∧
      rbMax (newTree : RBState Int) = .error .nilDeref ∧
      subMin intLt ⟨200, 1000⟩ testTree = none ∧
      subMax intLt ⟨200, 1000⟩ testTree = some 100 := by
  refine ⟨rfl, rfl, ?_, ?_⟩ <;> decide

/-- C8 counterexample: both bounds of the narrowing request equal the
parent view's `toKey = 1000`, which lies outside the half-open range
`[11, 1000)` of that view, yet `SubTree(1000, 1000)` succeeds instead of
failing with the out-of-range error. -/
theorem c8_counterexample :
    subSubTree intLt ⟨11, 1000⟩ 1000 1000 = .ok ⟨1000, 1000⟩ ∧
      ¬(1000 : Int) < 1000 := by
  refine ⟨?_, by omega⟩
  decide

/-- C8 amended: narrowing fails with `ErrorOutOfSubTreeRange` exactly
when a new bound is below the current `fromKey` or strictly above the
current `toKey` (the current `toKey` itself is accepted); on success the
result is a plain bounds pair served directly by the backing tree.  The
concrete cases: `SubTree(10, 90)` on `[11, 1000)` fails, `SubTree(31,
999)` succeeds and iterates `31, 32, 38, 41, 57, 100`. -/
theorem c8_amended :
    (∀ (α : Type) (lt : α → α → Bool) (s : SubT α) (fromKey toKey : α),
      ((lt fromKey s.fromKey || lt s.toKey fromKey ||
          lt toKey s.fromKey || lt s.toKey toKey) = true →
        subSubTree lt s fromKey toKey = .error .outOfSubTreeRange) ∧
      ((lt fromKey s.fromKey || lt s.toKey fromKey ||
          lt toKey s.fromKey || lt s.toKey toKey) = false →
        lt toKey fromKey = false →
        subSubTree lt s fromKey toKey = .ok ⟨fromKey, toKey⟩)) ∧
    subSubTree intLt ⟨11, 1000⟩ 10 90 = .error .outOfSubTreeRange ∧
    subSubTree intLt ⟨11, 1000⟩ 31 999 = .ok ⟨31, 999⟩ ∧
    subTraverse intLt ⟨31, 999⟩ testTree = [31, 32, 38, 41, 57, 100] := by
  refine ⟨?_, by decide, by decide, by decide⟩
  intro α lt s fromKey toKey
  constructor
  · intro hcond
    have hcase : (!inRange lt s fromKey || !inRange lt s toKey) = true := by
      simp only [Bool.or_eq_true] at hcond
      simp only [inRange, Bool.not_and, Bool.or_eq_true, Bool.not_eq_true',
        Bool.not_not]
      tauto
    rw [subSubTree]
    simp [hcase]
  · intro hcond hto
    simp only [Bool.or_eq_false_iff] at hcond
    have h1 : inRange lt s fromKey = true := by
      simp [inRange, hcond.1.1.1, hcond.1.1.2]
    have h2 : inRange lt s toKey = true := by
      simp [inRange, hcond.1.2, hcond.2]
    rw [subSubTree]
    simp [h1, h2, rbSubTree, hto]

/-- Witness for the amended C8. -/
theorem c8_amended_witness :
    subSubTree intLt ⟨11, 1000⟩ 5 500 = .error .outOfSubTreeRange ∧
      subSubTree intLt ⟨11, 1000⟩ 20 400 = .ok ⟨20, 400⟩ :=
  ⟨(c8_amended.1 Int intLt ⟨11, 1000⟩ 5 500).1 (by decide),
    (c8_amended.1 Int intLt ⟨11, 1000⟩ 20 400).2 (by decide) (by decide)⟩

end Rbt
